import Mathlib

/-!
# `HashTable.h`: a fixed-capacity chained hash table with a forward iterator

Shallow embedding of `src/HashTable.h`.

* `size_t` is a natural number below `SIZE_LIMIT = 2 ^ 64`; subtraction and the left
  shift wrap explicitly.
* `std::string` is the list of its `char`s and a `char` is its integer value, so that the
  conversion of `key[i]` to `size_t` in `hash_it` is the value modulo `2 ^ 64` whatever the
  signedness of `char`.
* The bucket array `list<T>* hashTable` is a list of buckets, `std::list<T>` is `List T`.
  A pointer into the bucket array is the index of the bucket it points to, a
  `std::list<T>::iterator` of a bucket is a position in it (`0` is `begin()`, the length is
  `end()`).
* An access outside the bucket array, stepping a list iterator past `end()`, reading
  through `end()` and `% 0` have no defined result: the operations return `Option`, and
  `none` stands for such an execution.
-/

set_option autoImplicit false

namespace HashTableSTL

/-! ## Machine integers and text -/

/-- Values of `size_t` are the naturals below `2 ^ 64`. -/
def SIZE_LIMIT : Nat := 2 ^ 64

/-- Line 16: `const size_t DEFAULT_SIZE = 1048576;`. -/
def DEFAULT_SIZE : Nat := 1048576

/-- Subtraction of two `size_t` values (wraps below zero). -/
def size_t_sub (a b : Nat) : Nat := (a + SIZE_LIMIT - b) % SIZE_LIMIT

/-- Left shift of a `size_t` value (bits shifted out of the word are lost). -/
def size_t_shl (a k : Nat) : Nat := (a <<< k) % SIZE_LIMIT

/-- A `std::string`: its `char`s in order, each given by its integer value. -/
abbrev string := List Int

/-- Conversion of a `char` operand to `size_t` (value modulo `2 ^ 64`). -/
def char_to_size_t (c : Int) : Nat := (c % (SIZE_LIMIT : Int)).toNat

/-- The conversion `const T&` to `const string&` that `hash_it(t)` relies on
("Currently only string is supported"). -/
class TextOf (T : Type) where
  text_of : T → string

instance : TextOf string := ⟨fun s => s⟩

/-! ## `std::find` on a bucket -/

/-- The call `std::find(l.begin(), l.end(), t)`: the position of the first element equal to
`t`, or `l.end()` (the length) when there is none. -/
def std_find {T : Type} [DecidableEq T] : List T → T → Nat
  | [], _ => 0
  | y :: rest, t => if y = t then 0 else std_find rest t + 1

/-! ## The table and its iterator -/

/-- Private members of `HashTable<T>` (lines 44-46). -/
structure HashTable (T : Type) where
  hashTable : List (List T)
  tableSize : Nat
deriving DecidableEq, Repr

/-- Private members of `HashTable<T>::iterator` (lines 53-55). -/
structure iterator where
  bucket : Nat
  node : Nat
  lastBucket : Nat
deriving DecidableEq, Repr

/-- Constructor of the iterator (lines 57-62); note the order of the arguments. -/
def iterator.new (bucket lastBucket node : Nat) : iterator := ⟨bucket, node, lastBucket⟩

/-- Line 85: `operator==` compares the bucket and the node, not `lastBucket`. -/
def iterator.eq (a b : iterator) : Bool := a.bucket == b.bucket && a.node == b.node

/-- Line 86: `operator!=`. -/
def iterator.ne (a b : iterator) : Bool := !(a.eq b)

namespace HashTable

variable {T : Type}

/-- Lines 147-153: `HashTable(size_t tableSz)`. -/
def new (tableSz : Nat) : HashTable T := ⟨List.replicate tableSz [], tableSz⟩

/-- The loop of `hash_it` (lines 174-175): `for (i = 0, n = key.size(); i < n; i++)
hash = (hash << 2) ^ key[i];`. The first argument is the number `n - i` of iterations
left. -/
def hash_loop (key : string) : Nat → Nat → Nat → Nat
  | 0, _, hash => hash
  | k + 1, i, hash =>
    hash_loop key k (i + 1) (Nat.xor (size_t_shl hash 2) (char_to_size_t (key.getD i 0)))

/-- Lines 171-177: `hash_it`. `hash % tableSize` has no result when `tableSize` is `0`. -/
def hash_it (t : HashTable T) (key : string) : Option Nat :=
  let hash := hash_loop key key.length 0 0
  if t.tableSize = 0 then none else some (hash % t.tableSize)

/-- Lines 109-116: `end()`. -/
def end_ (t : HashTable T) : Option iterator :=
  let bucket := size_t_sub t.tableSize 1
  match t.hashTable[bucket]? with
  | none => none
  | some l => some (iterator.new bucket bucket l.length)

/-- The `for` loop of `begin()` (lines 97-104); the first argument is the number
`tableSize - i` of iterations left. -/
def begin_loop (t : HashTable T) : Nat → Nat → Option iterator
  | 0, _ => t.end_
  | k + 1, i =>
    match t.hashTable[i]? with
    | none => none
    | some l =>
      if !l.isEmpty then some (iterator.new i (size_t_sub t.tableSize 1) 0)
      else begin_loop t k (i + 1)

/-- Lines 90-106: `begin()`. -/
def begin (t : HashTable T) : Option iterator :=
  if t.tableSize = 0 then t.end_ else begin_loop t t.tableSize 0

/-- Lines 120-130: `insert`. -/
def insert [DecidableEq T] [TextOf T] (t : HashTable T) (x : T) : Option (HashTable T) :=
  match t.hash_it (TextOf.text_of x) with
  | none => none
  | some i =>
    match t.hashTable[i]? with
    | none => none
    | some l =>
      if std_find l x = l.length then some ⟨t.hashTable.set i (l ++ [x]), t.tableSize⟩
      else some t

/-- Lines 134-142: `find`. -/
def find [DecidableEq T] [TextOf T] (t : HashTable T) (x : T) : Option iterator :=
  match t.hash_it (TextOf.text_of x) with
  | none => none
  | some i =>
    match t.hashTable[i]? with
    | none => none
    | some l =>
      let it := std_find l x
      if it ≠ l.length then some (iterator.new i (size_t_sub t.tableSize 1) it)
      else t.end_

/-- The loop of the range constructor (lines 164-167) over the elements of
`[first, last)`. -/
def range_loop [DecidableEq T] [TextOf T] (t : HashTable T) : List T → Option (HashTable T)
  | [] => some t
  | x :: rest =>
    match t.insert x with
    | none => none
    | some t1 => range_loop t1 rest

/-- Lines 155-168: `HashTable(InputIterator first, InputIterator last, size_t tableSz)`,
the input range given by the list of its elements. -/
def new_from_range [DecidableEq T] [TextOf T] (xs : List T) (tableSz : Nat) :
    Option (HashTable T) :=
  range_loop (new tableSz) xs

/-- A caller making the calls `insert(x)` for the `x` of `xs`, one after the other. -/
def inserts [DecidableEq T] [TextOf T] (t : HashTable T) (xs : List T) :
    Option (HashTable T) :=
  xs.foldlM (fun acc x => acc.insert x) t

/-- Line 84: `operator*`, reading the element at `node` in the bucket. -/
def deref (t : HashTable T) (it : iterator) : Option T :=
  match t.hashTable[it.bucket]? with
  | none => none
  | some l => l[it.node]?

/-- The loop of lines 73-76, `while (bucket != lastBucket && bucket->empty()) ++bucket;`.
The list is the part of the bucket array from `bucket` on; leaving it is an access outside
the array. -/
def skip_empty (lastBucket : Nat) : List (List T) → Nat → Option Nat
  | [], bucket => if bucket ≠ lastBucket then none else some bucket
  | l :: rest, bucket =>
    if bucket ≠ lastBucket && l.isEmpty then skip_empty lastBucket rest (bucket + 1)
    else some bucket

/-- Lines 63-83: `operator++` of the iterator, on the table it points into. -/
def advance (t : HashTable T) (it : iterator) : Option iterator :=
  match t.hashTable[it.bucket]? with
  | none => none
  | some l =>
    if it.node < l.length then
      let node := it.node + 1
      if node = l.length && it.bucket ≠ it.lastBucket then
        match skip_empty it.lastBucket (t.hashTable.drop (it.bucket + 1)) (it.bucket + 1) with
        | none => none
        | some bucket =>
          match t.hashTable[bucket]? with
          | none => none
          | some _ => some ⟨bucket, 0, it.lastBucket⟩
      else some ⟨it.bucket, node, it.lastBucket⟩
    else none

/-- The range-based `for` over the table (line 183): `for (it = begin(); it != end(); ++it)`
reading `*it`; the result is the sequence of the values read. The first argument bounds
the number of evaluations of the loop condition. -/
def for_loop (t : HashTable T) : Nat → iterator → iterator → Option (List T)
  | 0, _, _ => none
  | fuel + 1, it, e =>
    if it.ne e then
      match t.deref it with
      | none => none
      | some x =>
        match t.advance it with
        | none => none
        | some it1 => (for_loop t fuel it1 e).map (fun out => x :: out)
    else some []

/-- Iteration from `begin()` to `end()`. -/
def iterate (t : HashTable T) (fuel : Nat) : Option (List T) :=
  match t.begin, t.end_ with
  | some b, some e => for_loop t fuel b e
  | _, _ => none

/-- The loop of `operator<<` (lines 183-186): the range-based `for` over the table with the
body `os << x << ' ';`. `put x` is the text that `os << x` writes, the last argument the
text written to `os` so far, `32` the space. -/
def dump_loop (put : T → string) (t : HashTable T) :
    Nat → iterator → iterator → string → Option string
  | 0, _, _, _ => none
  | fuel + 1, it, e, os =>
    if it.ne e then
      match t.deref it with
      | none => none
      | some x =>
        match t.advance it with
        | none => none
        | some it1 => dump_loop put t fuel it1 e (os ++ put x ++ [32])
    else some os

/-- Lines 179-188: `operator<<(ostream& os, const HashTable<T>& table)`; the result is the
text on `os` afterwards. -/
def dump (put : T → string) (t : HashTable T) (fuel : Nat) (os : string) : Option string :=
  match t.begin, t.end_ with
  | some b, some e => dump_loop put t fuel b e os
  | _, _ => none

/-- Number of elements held by the table. -/
def size (t : HashTable T) : Nat := t.hashTable.flatten.length

end HashTable

/-! ## Test data -/

/-- The text "ant". -/
def ant : string := [97, 110, 116]
/-- The text "bee". -/
def bee : string := [98, 101, 101]
/-- The text "cat". -/
def cat : string := [99, 97, 116]
/-- The text "dog". -/
def dog : string := [100, 111, 103]
/-- The text "x". -/
def text_x : string := [120]
/-- The text "y". -/
def text_y : string := [121]
/-- The text "z". -/
def text_z : string := [122]

/-- The table of capacity 4 after the inserts "ant", "bee", "cat". -/
def table_abc : HashTable string := ⟨[[ant, cat], [bee], [], []], 4⟩
/-- A table of capacity 4 with "ant" in bucket 0 and "bee", "dog" in the last bucket. -/
def table_last : HashTable string := ⟨[[ant], [], [], [bee, dog]], 4⟩
/-- A table of capacity 4 whose bucket 0 is empty, with "ant" in bucket 1. -/
def table_second : HashTable string := ⟨[[], [ant], [], [bee, dog]], 4⟩
/-- The table of capacity 4 after the insert "ant". -/
def table_ant : HashTable string := ⟨[[ant], [], [], []], 4⟩

/-! ## Auxiliary notions used in the statements -/

namespace HashTable

variable {T : Type}

/-- The index `hash(text_of(x)) mod capacity` of the bucket of `x`. -/
def bucket_index [TextOf T] (cap : Nat) (x : T) : Nat :=
  hash_loop (TextOf.text_of x) (TextOf.text_of x).length 0 0 % cap

/-- The distinct values of a sequence, each at the place of its first occurrence. -/
def first_occurrences [DecidableEq T] (xs : List T) : List T :=
  xs.foldl (fun acc x => if x ∈ acc then acc else acc ++ [x]) []

/-- One step of the hash in the words of the specification: `h` shifted left by 2 bits,
XOR the numeric code of the character (as integers, a negative code in two's complement),
the running value wrapped modulo `2 ^ 64`. -/
def hash_step_spec (h : Nat) (c : Int) : Nat :=
  (Int.xor (((h <<< 2 : Nat) : Int)) c % (2 ^ 64 : Int)).toNat

/-- The hash in the words of the specification: start at 0, one step for each character in
order, final index `h mod capacity`. -/
def hash_spec (key : string) (cap : Nat) : Nat :=
  key.foldl hash_step_spec 0 % cap

/-- The iterator after `n` applications of `operator++`. -/
def advance_n (t : HashTable T) : Nat → iterator → Option iterator
  | 0, it => some it
  | n + 1, it =>
    match t.advance it with
    | none => none
    | some it1 => advance_n t n it1

/-- Number of elements from the position of the iterator to the end of the table. -/
def remaining (t : HashTable T) (it : iterator) : Nat :=
  (t.hashTable.drop it.bucket).flatten.length - it.node

/-- The iterator is at an element of a bucket of the table and its end bound is the last
bucket. -/
def at_element (t : HashTable T) (it : iterator) : Prop :=
  it.lastBucket = t.tableSize - 1 ∧
    ∃ l, t.hashTable[it.bucket]? = some l ∧ it.node < l.length

/-- Texts written one after the other with a single space between two of them, in the
words of the specification of the dump. -/
def separated_by_space (texts : List string) : string := [32].intercalate texts

/-- A table as the constructors leave it: as many buckets as `tableSize` says, at least
one, and `tableSize` a value of `size_t`. -/
structure WF (t : HashTable T) : Prop where
  len : t.hashTable.length = t.tableSize
  pos : 0 < t.tableSize
  lt : t.tableSize < SIZE_LIMIT

/-- The table of capacity `cap` whose bucket `i` holds the elements of `ys` of bucket
index `i`, in the order of `ys`. -/
def table_of [TextOf T] (cap : Nat) (ys : List T) : HashTable T :=
  ⟨(List.range cap).map (fun i => ys.filter (fun y => decide (bucket_index cap y = i))), cap⟩

end HashTable

/-! ## Basic facts -/

namespace HashTable

variable {T : Type}

theorem size_t_sub_one {n : Nat} (h0 : 0 < n) (h : n < SIZE_LIMIT) :
    size_t_sub n 1 = n - 1 := by
  unfold size_t_sub
  unfold SIZE_LIMIT at *
  omega

theorem std_find_le [DecidableEq T] (l : List T) (x : T) : std_find l x ≤ l.length := by
  induction l with
  | nil => simp [std_find]
  | cons y rest ih =>
    simp only [std_find]
    split
    · simp
    · simp; exact ih

theorem std_find_eq_length_iff [DecidableEq T] (l : List T) (x : T) :
    std_find l x = l.length ↔ x ∉ l := by
  induction l with
  | nil => simp [std_find]
  | cons y rest ih =>
    simp only [std_find]
    by_cases h : y = x
    · simp [h]
    · simp [h, ih, Ne.symm h]

theorem std_find_getElem [DecidableEq T] (l : List T) (x : T) (h : x ∈ l) :
    l[std_find l x]? = some x := by
  induction l with
  | nil => simp at h
  | cons y rest ih =>
    simp only [std_find]
    by_cases hy : y = x
    · simp [hy]
    · have hx : x ∈ rest := by
        rcases List.mem_cons.mp h with h1 | h1
        · exact absurd h1.symm hy
        · exact h1
      simp [hy, ih hx]

theorem hash_it_eq [TextOf T] (t : HashTable T) (h : 0 < t.tableSize) (x : T) :
    t.hash_it (TextOf.text_of x) = some (bucket_index t.tableSize x) := by
  unfold hash_it bucket_index
  simp [Nat.pos_iff_ne_zero.mp h]

theorem bucket_index_lt [TextOf T] {cap : Nat} (h : 0 < cap) (x : T) :
    bucket_index cap x < cap := Nat.mod_lt _ h

theorem wf_new (cap : Nat) (h1 : 1 ≤ cap) (h2 : cap < SIZE_LIMIT) :
    WF (new cap : HashTable T) := ⟨by simp [new], h1, h2⟩

theorem wf_table_of [TextOf T] (cap : Nat) (h1 : 1 ≤ cap) (h2 : cap < SIZE_LIMIT)
    (ys : List T) : WF (table_of cap ys) := ⟨by simp [table_of], h1, h2⟩

/-- What `insert` does on a well-formed table. -/
theorem insert_eq [DecidableEq T] [TextOf T] (t : HashTable T) (h : WF t) (x : T) :
    ∃ l, t.hashTable[bucket_index t.tableSize x]? = some l ∧
      t.insert x = some (if x ∈ l then t
        else ⟨t.hashTable.set (bucket_index t.tableSize x) (l ++ [x]), t.tableSize⟩) := by
  have hi : bucket_index t.tableSize x < t.hashTable.length := by
    rw [h.len]; exact bucket_index_lt h.pos x
  refine ⟨t.hashTable[bucket_index t.tableSize x], List.getElem?_eq_getElem hi, ?_⟩
  unfold insert
  rw [hash_it_eq t h.pos x]
  simp only [List.getElem?_eq_getElem hi]
  by_cases hx : x ∈ t.hashTable[bucket_index t.tableSize x]
  · have := (std_find_eq_length_iff t.hashTable[bucket_index t.tableSize x] x).not.mpr
      (not_not.mpr hx)
    simp [hx, this]
  · have := (std_find_eq_length_iff t.hashTable[bucket_index t.tableSize x] x).mpr hx
    simp [hx, this]

theorem new_eq_table_of [TextOf T] (cap : Nat) : (new cap : HashTable T) = table_of cap [] := by
  unfold new table_of
  congr 1
  apply List.ext_getElem?
  intro i
  simp [List.getElem?_replicate, List.getElem?_range]

/-! ## The hash function -/

theorem negSucc_emod_toNat (m : Nat) :
    (Int.negSucc m % (18446744073709551616 : Int)).toNat
      = 18446744073709551616 - (m % 18446744073709551616 + 1) := by
  rw [Int.negSucc_emod m (by decide)]
  omega

theorem ofNat_emod_toNat (m : Nat) :
    ((m : Int) % (18446744073709551616 : Int)).toNat = m % 18446744073709551616 := by
  omega

theorem xor_mod (a n : Nat) : (a % 2 ^ 64) ^^^ (n % 2 ^ 64) = (a ^^^ n) % 2 ^ 64 := by
  apply Nat.eq_of_testBit_eq
  intro i
  simp only [Nat.testBit_xor, Nat.testBit_mod_two_pow]
  by_cases h : i < 64 <;> simp [h]

theorem xor_compl (a n : Nat) :
    (a % 2 ^ 64) ^^^ (2 ^ 64 - (n % 2 ^ 64 + 1)) = 2 ^ 64 - ((a ^^^ n) % 2 ^ 64 + 1) := by
  apply Nat.eq_of_testBit_eq
  intro i
  rw [Nat.testBit_xor, Nat.testBit_two_pow_sub_succ (Nat.mod_lt _ (by decide)),
    Nat.testBit_two_pow_sub_succ (Nat.mod_lt _ (by decide))]
  simp only [Nat.testBit_xor, Nat.testBit_mod_two_pow]
  by_cases h : i < 64 <;> simp [h]

/-- The step of the loop of `hash_it` is the step of the specification. -/
theorem hash_step_eq (h : Nat) (c : Int) :
    Nat.xor (size_t_shl h 2) (char_to_size_t c) = hash_step_spec h c := by
  have e64 : (2 : Nat) ^ 64 = 18446744073709551616 := by norm_num
  have e64i : (2 : Int) ^ 64 = 18446744073709551616 := by norm_num
  unfold size_t_shl char_to_size_t hash_step_spec SIZE_LIMIT
  show (h <<< 2 % 2 ^ 64) ^^^ (c % ((2 ^ 64 : Nat) : Int)).toNat = _
  cases c with
  | ofNat n =>
    have hx : Int.xor (((h <<< 2 : Nat) : Int)) (Int.ofNat n)
        = (((h <<< 2) ^^^ n : Nat) : Int) := rfl
    rw [hx]
    simp only [Int.ofNat_eq_coe, Nat.cast_pow, Nat.cast_ofNat, e64i, ofNat_emod_toNat]
    rw [← e64, xor_mod]
  | negSucc n =>
    have hx : Int.xor (((h <<< 2 : Nat) : Int)) (Int.negSucc n)
        = Int.negSucc ((h <<< 2) ^^^ n) := rfl
    rw [hx]
    simp only [Nat.cast_pow, Nat.cast_ofNat, e64i, negSucc_emod_toNat]
    rw [← e64, xor_compl]

theorem hash_loop_eq_foldl (key : string) :
    ∀ (k i h : Nat), i + k = key.length →
      hash_loop key k i h = (key.drop i).foldl hash_step_spec h := by
  intro k
  induction k with
  | zero =>
    intro i h hi
    have : key.drop i = [] := List.drop_eq_nil_of_le (by omega)
    simp [hash_loop, this]
  | succ k ih =>
    intro i h hi
    have hil : i < key.length := by omega
    rw [hash_loop, ih (i + 1) _ (by omega), List.drop_eq_getElem_cons hil, List.foldl_cons,
      hash_step_eq]
    simp [List.getD, List.getElem?_eq_getElem hil]

/-! ## Tables reached by inserts -/

theorem table_of_getElem [TextOf T] (cap : Nat) (ys : List T) (i : Nat) :
    (table_of cap ys).hashTable[i]? =
      if i < cap then some (ys.filter (fun y => decide (bucket_index cap y = i))) else none := by
  unfold table_of
  by_cases h : i < cap
  · simp [h, List.getElem?_range]
  · simp [h, Nat.le_of_not_lt h]

theorem insert_table_of [DecidableEq T] [TextOf T] (cap : Nat) (h1 : 1 ≤ cap)
    (h2 : cap < SIZE_LIMIT) (ys : List T) (x : T) :
    (table_of cap ys).insert x = some (table_of cap (if x ∈ ys then ys else ys ++ [x])) := by
  obtain ⟨l, hl, hins⟩ := insert_eq (table_of cap ys) (wf_table_of cap h1 h2 ys) x
  have hcap : (table_of cap ys).tableSize = cap := rfl
  rw [hcap] at hl hins
  have hlt : bucket_index cap x < cap := bucket_index_lt h1 x
  rw [table_of_getElem, if_pos hlt] at hl
  have hl1 : l = ys.filter (fun y => decide (bucket_index cap y = bucket_index cap x)) :=
    (Option.some.inj hl).symm
  have hmem : x ∈ l ↔ x ∈ ys := by simp [hl1]
  rw [hins]
  by_cases hx : x ∈ ys
  · simp [hx, hmem.mpr hx]
  · have hx1 : x ∉ l := fun h => hx (hmem.mp h)
    simp only [hx, hx1, if_false]
    congr 1
    show HashTable.mk _ _ = table_of cap (ys ++ [x])
    unfold table_of
    congr 1
    apply List.ext_getElem?
    intro j
    rw [List.getElem?_set]
    by_cases hj : bucket_index cap x = j
    · subst hj
      simp [hlt, List.getElem?_range, hl1, List.filter_append]
    · simp only [hj, if_false]
      by_cases hjc : j < cap
      · simp [hjc, List.getElem?_range, List.filter_append, hj]
      · have hn : (List.range cap)[j]? = none := by
          simp [Nat.le_of_not_lt hjc]
        simp [hn]

theorem inserts_table_of [DecidableEq T] [TextOf T] (cap : Nat) (h1 : 1 ≤ cap)
    (h2 : cap < SIZE_LIMIT) (xs ys : List T) :
    (table_of cap ys).inserts xs =
      some (table_of cap (xs.foldl (fun acc x => if x ∈ acc then acc else acc ++ [x]) ys)) := by
  induction xs generalizing ys with
  | nil => simp [inserts]
  | cons x rest ih =>
    have := ih (if x ∈ ys then ys else ys ++ [x])
    unfold inserts at this ⊢
    simp only [List.foldlM_cons, List.foldl_cons, insert_table_of cap h1 h2]
    exact this

/-- The table a fresh table of capacity `cap` becomes by the calls `insert(x)`, `x` in
`xs`. -/
theorem inserts_new [DecidableEq T] [TextOf T] (cap : Nat) (h1 : 1 ≤ cap)
    (h2 : cap < SIZE_LIMIT) (xs : List T) :
    (new cap).inserts xs = some (table_of cap (first_occurrences xs)) := by
  rw [new_eq_table_of, inserts_table_of cap h1 h2]
  rfl

theorem foldl_first [DecidableEq T] (xs ys : List T) (hy : ys.Nodup) :
    (xs.foldl (fun acc x => if x ∈ acc then acc else acc ++ [x]) ys).Nodup ∧
    ∀ y, y ∈ xs.foldl (fun acc x => if x ∈ acc then acc else acc ++ [x]) ys ↔
      y ∈ ys ∨ y ∈ xs := by
  induction xs generalizing ys with
  | nil => simp [hy]
  | cons x rest ih =>
    simp only [List.foldl_cons]
    by_cases hx : x ∈ ys
    · simp only [hx, if_true]
      refine ⟨(ih ys hy).1, fun y => ?_⟩
      rw [(ih ys hy).2 y]
      constructor
      · rintro (h | h)
        · exact Or.inl h
        · exact Or.inr (List.mem_cons_of_mem _ h)
      · rintro (h | h)
        · exact Or.inl h
        · rcases List.mem_cons.mp h with h | h
          · exact Or.inl (h ▸ hx)
          · exact Or.inr h
    · simp only [hx, if_false]
      have hn : (ys ++ [x]).Nodup := by
        rw [List.nodup_append]
        refine ⟨hy, List.nodup_singleton x, ?_⟩
        intro a ha hb
        rw [List.mem_singleton] at hb
        exact hx (hb ▸ ha)
      refine ⟨(ih _ hn).1, fun y => ?_⟩
      rw [(ih _ hn).2 y]
      simp only [List.mem_append, List.mem_singleton, List.mem_cons]
      tauto

theorem first_occurrences_nodup [DecidableEq T] (xs : List T) :
    (first_occurrences xs).Nodup := (foldl_first xs [] List.nodup_nil).1

theorem mem_first_occurrences [DecidableEq T] (xs : List T) (y : T) :
    y ∈ first_occurrences xs ↔ y ∈ xs := by
  unfold first_occurrences
  rw [(foldl_first xs [] List.nodup_nil).2 y]
  simp

/-! ## `end()` and `find` on a well-formed table -/

theorem end_eq (t : HashTable T) (h : WF t) :
    ∃ l, t.hashTable[t.tableSize - 1]? = some l ∧
      t.end_ = some ⟨t.tableSize - 1, l.length, t.tableSize - 1⟩ := by
  have hi : t.tableSize - 1 < t.hashTable.length := by
    have := h.pos
    rw [h.len]; omega
  refine ⟨t.hashTable[t.tableSize - 1], List.getElem?_eq_getElem hi, ?_⟩
  unfold end_
  simp only [size_t_sub_one h.pos h.lt, List.getElem?_eq_getElem hi]
  rfl

theorem find_eq [DecidableEq T] [TextOf T] (t : HashTable T) (h : WF t) (x : T) :
    ∃ l, t.hashTable[bucket_index t.tableSize x]? = some l ∧
      t.find x = if x ∈ l
        then some ⟨bucket_index t.tableSize x, std_find l x, t.tableSize - 1⟩
        else t.end_ := by
  have hi : bucket_index t.tableSize x < t.hashTable.length := by
    rw [h.len]; exact bucket_index_lt h.pos x
  refine ⟨t.hashTable[bucket_index t.tableSize x], List.getElem?_eq_getElem hi, ?_⟩
  unfold find
  rw [hash_it_eq t h.pos x]
  simp only [List.getElem?_eq_getElem hi, size_t_sub_one h.pos h.lt]
  by_cases hx : x ∈ t.hashTable[bucket_index t.tableSize x]
  · have := (std_find_eq_length_iff t.hashTable[bucket_index t.tableSize x] x).not.mpr
      (not_not.mpr hx)
    simp [hx, this, iterator.new]
  · have := (std_find_eq_length_iff t.hashTable[bucket_index t.tableSize x] x).mpr hx
    simp [hx, this]

/-! ## Iteration from `begin()` to `end()` -/

theorem drop_cons_of_getElem {α : Type} (H : List α) (b : Nat) (l : α)
    (h : H[b]? = some l) : H.drop b = l :: H.drop (b + 1) := by
  obtain ⟨hb, rfl⟩ := List.getElem?_eq_some.mp h
  exact List.drop_eq_getElem_cons hb

/-- The loop that skips the empty buckets stops at a bucket of the array, not beyond the
last one, and has passed empty buckets only. -/
theorem skip_empty_spec (H : List (List T)) (last : Nat) (hlast : last + 1 = H.length) :
    ∀ (rest : List (List T)) (b : Nat), rest = H.drop b → b ≤ last →
      ∃ b1 l1, skip_empty last rest b = some b1 ∧ H[b1]? = some l1 ∧ b ≤ b1 ∧ b1 ≤ last ∧
        (H.drop b1).flatten = (H.drop b).flatten ∧ (l1 = [] → b1 = last) := by
  intro rest
  induction rest with
  | nil =>
    intro b hrest hb
    have : (H.drop b).length = 0 := by rw [← hrest]; rfl
    rw [List.length_drop] at this
    omega
  | cons l rest1 ih =>
    intro b hrest hb
    have hbl : b < H.length := by omega
    have hd := List.drop_eq_getElem_cons hbl
    rw [hd] at hrest
    obtain ⟨hl, hr⟩ := List.cons.inj hrest
    have hget : H[b]? = some l := by rw [List.getElem?_eq_getElem hbl, hl]
    by_cases hlastb : b = last
    · refine ⟨b, l, ?_, hget, le_refl _, hb, rfl, fun _ => hlastb⟩
      simp [skip_empty, hlastb]
    · cases l with
      | nil =>
        obtain ⟨b1, l1, h1, h2, h3, h4, h5, h6⟩ := ih (b + 1) hr (by omega)
        refine ⟨b1, l1, ?_, h2, by omega, h4, ?_, h6⟩
        · simp [skip_empty, hlastb, h1]
        · rw [h5, hd, ← hl]; simp
      | cons a l2 =>
        refine ⟨b, a :: l2, ?_, hget, le_refl _, hb, rfl, fun h => by simp at h⟩
        simp [skip_empty]

theorem for_loop_at_end (t : HashTable T) (fuel : Nat) (e : iterator) :
    for_loop t (fuel + 1) e e = some [] := by
  simp [for_loop, iterator.ne, iterator.eq]

/-- From a position at an element the loop reads the rest of the bucket and then the
buckets after it. -/
theorem for_loop_from (t : HashTable T) (h : WF t) (le : List T)
    (hle : t.hashTable[t.tableSize - 1]? = some le) :
    ∀ (fuel b k : Nat) (l : List T), t.hashTable[b]? = some l → k < l.length →
      (l.length - k) + (t.hashTable.drop (b + 1)).flatten.length < fuel →
      for_loop t fuel ⟨b, k, t.tableSize - 1⟩ ⟨t.tableSize - 1, le.length, t.tableSize - 1⟩
        = some (l.drop k ++ (t.hashTable.drop (b + 1)).flatten) := by
  have hpos := h.pos
  have hlen := h.len
  intro fuel
  induction fuel with
  | zero => intro b k l _ _ hf; omega
  | succ fuel ih =>
    intro b k l hl hk hf
    have hbl : b < t.hashTable.length := (List.getElem?_eq_some.mp hl).1
    have hne : iterator.ne ⟨b, k, t.tableSize - 1⟩
        ⟨t.tableSize - 1, le.length, t.tableSize - 1⟩ = true := by
      by_cases hb : b = t.tableSize - 1
      · rw [hb, hle] at hl
        have hll : le = l := Option.some.inj hl
        subst hll
        simp [iterator.ne, iterator.eq, hb, Nat.ne_of_lt hk]
      · simp [iterator.ne, iterator.eq, hb]
    have hderef : t.deref ⟨b, k, t.tableSize - 1⟩ = some l[k] := by
      simp [deref, hl, List.getElem?_eq_getElem hk]
    have hdropk : l.drop k = l[k] :: l.drop (k + 1) := List.drop_eq_getElem_cons hk
    rw [for_loop, if_pos hne]
    simp only [hderef]
    by_cases hk1 : k + 1 < l.length
    · have hadv : t.advance ⟨b, k, t.tableSize - 1⟩ = some ⟨b, k + 1, t.tableSize - 1⟩ := by
        simp [advance, hl, hk, Nat.ne_of_lt hk1]
      simp only [hadv]
      rw [ih b (k + 1) l hl hk1 (by omega), hdropk]
      rfl
    · have hk2 : k + 1 = l.length := by omega
      have hdrop1 : l.drop (k + 1) = [] := by rw [hk2]; simp
      by_cases hb : b = t.tableSize - 1
      · have hadv : t.advance ⟨b, k, t.tableSize - 1⟩
            = some ⟨b, k + 1, t.tableSize - 1⟩ := by
          unfold advance
          simp only [hl]
          simp [hk, hb]
        rw [hb, hle] at hl
        have hll : le = l := Option.some.inj hl
        subst hll
        have hrest : t.hashTable.drop (b + 1) = [] := by
          apply List.drop_eq_nil_of_le; omega
        simp only [hadv]
        have hfuel : ∃ f, fuel = f + 1 := ⟨fuel - 1, by omega⟩
        obtain ⟨f, rfl⟩ := hfuel
        rw [hrest, hdropk, hdrop1, hb, hk2, for_loop_at_end]
        rfl
      · obtain ⟨b1, l1, hs1, hs2, hs3, hs4, hs5, hs6⟩ :=
          skip_empty_spec t.hashTable (t.tableSize - 1) (by omega)
            (t.hashTable.drop (b + 1)) (b + 1) rfl (by omega)
        have hadv : t.advance ⟨b, k, t.tableSize - 1⟩ = some ⟨b1, 0, t.tableSize - 1⟩ := by
          simp [advance, hl, hk, hk2, hb, hs1, hs2]
        have hd1 := drop_cons_of_getElem t.hashTable b1 l1 hs2
        simp only [hadv]
        cases l1 with
        | nil =>
          have hb1 := hs6 rfl
          rw [hb1, hle] at hs2
          have hle0 : le = [] := Option.some.inj hs2
          have hrest1 : t.hashTable.drop (b1 + 1) = [] := by
            apply List.drop_eq_nil_of_le; omega
          have hfl : (t.hashTable.drop (b + 1)).flatten = [] := by
            rw [← hs5, hd1, hrest1]; rfl
          have hfuel : ∃ f, fuel = f + 1 := ⟨fuel - 1, by omega⟩
          obtain ⟨f, rfl⟩ := hfuel
          rw [hdropk, hdrop1, hfl, hb1, hle0]
          simp only [List.length_nil]
          rw [for_loop_at_end]
          rfl
        | cons a l2 =>
          have hfl : (t.hashTable.drop (b + 1)).flatten
              = (a :: l2) ++ (t.hashTable.drop (b1 + 1)).flatten := by
            rw [← hs5, hd1]; rfl
          have hlenfl := congrArg List.length hfl
          rw [List.length_append] at hlenfl
          rw [ih b1 0 (a :: l2) hs2 (by simp) (by omega), hdropk, hdrop1, hfl]
          rfl

/-- The loop of `begin()` returns the first element of the first non-empty bucket at or
after `i`, or `end()` when there is none. -/
theorem begin_loop_spec (t : HashTable T) (h : WF t) (le : List T)
    (hle : t.hashTable[t.tableSize - 1]? = some le) :
    ∀ (k i : Nat), i + k = t.tableSize →
      ∃ it, begin_loop t k i = some it ∧
        ((∃ b l, it = ⟨b, 0, t.tableSize - 1⟩ ∧ t.hashTable[b]? = some l ∧ l ≠ [] ∧
            i ≤ b ∧ (∀ j l0, i ≤ j → j < b → t.hashTable[j]? = some l0 → l0 = []) ∧
            (t.hashTable.drop b).flatten = (t.hashTable.drop i).flatten) ∨
         (it = ⟨t.tableSize - 1, le.length, t.tableSize - 1⟩ ∧
            (t.hashTable.drop i).flatten = [])) := by
  have hlen := h.len
  obtain ⟨le1, hle1, hend⟩ := end_eq t h
  rw [hle] at hle1
  have hle2 : le = le1 := Option.some.inj hle1
  subst hle2
  intro k
  induction k with
  | zero =>
    intro i hi
    refine ⟨_, hend, Or.inr ⟨rfl, ?_⟩⟩
    have : t.hashTable.drop i = [] := by
      apply List.drop_eq_nil_of_le; omega
    rw [this]; rfl
  | succ k ih =>
    intro i hi
    have hil : i < t.hashTable.length := by omega
    have hget : t.hashTable[i]? = some t.hashTable[i] := List.getElem?_eq_getElem hil
    have hd := drop_cons_of_getElem t.hashTable i _ hget
    generalize t.hashTable[i] = l at hget hd
    cases l with
    | nil =>
      obtain ⟨it, hit, hcase⟩ := ih (i + 1) (by omega)
      refine ⟨it, ?_, ?_⟩
      · simp [begin_loop, hget, hit]
      · rcases hcase with ⟨b, l, h1, h2, h3, h4, h5, h6⟩ | ⟨h1, h2⟩
        · refine Or.inl ⟨b, l, h1, h2, h3, by omega, ?_, ?_⟩
          · intro j l0 hij hjb hj
            by_cases hji : j = i
            · rw [hji, hget] at hj
              exact (Option.some.inj hj).symm
            · exact h5 j l0 (by omega) hjb hj
          · rw [h6, hd]; rfl
        · exact Or.inr ⟨h1, by rw [hd]; exact h2⟩
    | cons a l2 =>
      refine ⟨⟨i, 0, t.tableSize - 1⟩, ?_, Or.inl ⟨i, a :: l2, rfl, hget, by simp,
        le_refl _, fun j l0 h1 h2 => by omega, rfl⟩⟩
      simp [begin_loop, hget, iterator.new, size_t_sub_one h.pos h.lt]

/-- Iterating a well-formed table from `begin()` to `end()` reads the buckets one after
the other, each from its first to its last element; one more evaluation of the loop
condition than there are elements is enough. -/
theorem iterate_eq (t : HashTable T) (h : WF t) (fuel : Nat) (hf : t.size < fuel) :
    t.iterate fuel = some t.hashTable.flatten := by
  obtain ⟨le, hle, hend⟩ := end_eq t h
  obtain ⟨it, hit, hcase⟩ := begin_loop_spec t h le hle t.tableSize 0 (by omega)
  have hbegin : t.begin = some it := by
    unfold begin
    rw [if_neg (Nat.pos_iff_ne_zero.mp h.pos)]
    exact hit
  unfold size at hf
  unfold iterate
  simp only [hbegin, hend]
  rcases hcase with ⟨b, l, h1, h2, h3, -, -, h6⟩ | ⟨h1, h2⟩
  · have hd := drop_cons_of_getElem t.hashTable b l h2
    have hpos : 0 < l.length := List.length_pos.mpr h3
    simp only [List.drop_zero] at h6
    have hfl : t.hashTable.flatten = l ++ (t.hashTable.drop (b + 1)).flatten := by
      rw [← h6, hd]; rfl
    have hlenfl := congrArg List.length hfl
    rw [List.length_append] at hlenfl
    rw [h1, for_loop_from t h le hle fuel b 0 l h2 hpos (by omega), hfl]
    rfl
  · simp only [List.drop_zero] at h2
    have hfuel : ∃ f, fuel = f + 1 := ⟨fuel - 1, by omega⟩
    obtain ⟨f, rfl⟩ := hfuel
    rw [h1, for_loop_at_end, h2]

/-! ## Content of a table reached by inserts -/

theorem mem_table_of_flatten [TextOf T] (cap : Nat) (h1 : 1 ≤ cap) (ys : List T) (y : T) :
    y ∈ (table_of cap ys).hashTable.flatten ↔ y ∈ ys := by
  unfold table_of
  simp only [List.mem_flatten, List.mem_map, List.mem_range]
  constructor
  · rintro ⟨l, ⟨i, -, rfl⟩, hy⟩
    exact (List.mem_filter.mp hy).1
  · intro hy
    exact ⟨_, ⟨bucket_index cap y, bucket_index_lt h1 y, rfl⟩,
      List.mem_filter.mpr ⟨hy, by simp⟩⟩

theorem table_of_flatten_nodup [TextOf T] (cap : Nat) (ys : List T) (hy : ys.Nodup) :
    (table_of cap ys).hashTable.flatten.Nodup := by
  unfold table_of
  rw [List.nodup_flatten]
  constructor
  · intro l hl
    obtain ⟨i, -, rfl⟩ := List.mem_map.mp hl
    exact hy.filter _
  · rw [List.pairwise_map]
    refine (List.nodup_range cap).imp ?_
    intro i j hij a ha hb
    have h1 := (List.mem_filter.mp ha).2
    have h2 := (List.mem_filter.mp hb).2
    simp only [decide_eq_true_eq] at h1 h2
    exact hij (h1.symm.trans h2)

theorem range_loop_eq_inserts [DecidableEq T] [TextOf T] (xs : List T) :
    ∀ t : HashTable T, range_loop t xs = t.inserts xs := by
  induction xs with
  | nil => intro t; rfl
  | cons x rest ih =>
    intro t
    unfold inserts
    rw [range_loop, List.foldlM_cons]
    cases hx : t.insert x with
    | none => rfl
    | some t1 => exact ih t1

/-- On a well-formed table without elements `begin()` returns what `end()` returns. -/
theorem begin_eq_end_of_empty (t : HashTable T) (h : WF t)
    (hempty : ∀ l ∈ t.hashTable, l = []) :
    ∃ e, t.begin = some e ∧ t.end_ = some e := by
  obtain ⟨le, hle, hend⟩ := end_eq t h
  obtain ⟨it, hit, hcase⟩ := begin_loop_spec t h le hle t.tableSize 0 (by omega)
  have hbegin : t.begin = some it := by
    unfold begin
    rw [if_neg (Nat.pos_iff_ne_zero.mp h.pos)]
    exact hit
  rcases hcase with ⟨b, l, -, h2, h3, -⟩ | ⟨h1, -⟩
  · exact absurd (hempty l (List.getElem?_mem h2)) h3
  · exact ⟨_, hbegin, h1 ▸ hend⟩

end HashTable

/-! ## Membership -/

open HashTable

/-- C1 (round-trip membership): for a capacity of at least 1 (a value of `size_t`), after
any sequence of calls of `insert` on a fresh table, `find(x)` for an inserted `x`
returns an iterator that differs from `end()` and whose dereference is `x`; its bucket
is the bucket of `x` and its end bound the last bucket. -/
theorem C1_round_trip_membership {T : Type} [DecidableEq T] [TextOf T] (cap : Nat)
    (h1 : 1 ≤ cap) (h2 : cap < SIZE_LIMIT) (xs : List T) (x : T) (hx : x ∈ xs) :
    ∃ t it e, (HashTable.new cap).inserts xs = some t ∧ t.find x = some it ∧
      t.end_ = some e ∧ it.ne e = true ∧ t.deref it = some x ∧
      it.bucket = bucket_index cap x ∧ it.lastBucket = cap - 1 := by
  have hwf := wf_table_of cap h1 h2 (first_occurrences xs)
  obtain ⟨l, hl, hfind⟩ := find_eq _ hwf x
  obtain ⟨le, hle, hend⟩ := end_eq _ hwf
  have hcap : (table_of cap (first_occurrences xs)).tableSize = cap := rfl
  rw [hcap] at hl hfind hle hend
  have hlt : bucket_index cap x < cap := bucket_index_lt h1 x
  have hl0 := hl
  rw [table_of_getElem, if_pos hlt] at hl0
  have hmem : x ∈ l := by
    rw [← Option.some.inj hl0]
    simp [mem_first_occurrences, hx]
  rw [if_pos hmem] at hfind
  have hpos : std_find l x < l.length :=
    lt_of_le_of_ne (std_find_le l x)
      ((std_find_eq_length_iff l x).not.mpr (not_not.mpr hmem))
  refine ⟨_, _, _, inserts_new cap h1 h2 xs, hfind, hend, ?_, ?_, rfl, rfl⟩
  · by_cases hb : bucket_index cap x = cap - 1
    · rw [hb, hle] at hl
      have hll : le = l := Option.some.inj hl
      subst hll
      simp [iterator.ne, iterator.eq, hb, Nat.ne_of_lt hpos]
    · simp [iterator.ne, iterator.eq, hb]
  · unfold deref
    simp only [hl]
    exact std_find_getElem l x hmem

/-- Instance of C1 on the table of capacity 4 holding "ant", "bee" and "cat". -/
theorem C1_round_trip_membership_witness :
    ∃ t it e, (HashTable.new 4).inserts [ant, bee, cat, ant] = some t ∧
      t.find bee = some it ∧ t.end_ = some e ∧ it.ne e = true ∧ t.deref it = some bee ∧
      it.bucket = bucket_index 4 bee ∧ it.lastBucket = 4 - 1 :=
  C1_round_trip_membership 4 (by decide) (by decide) [ant, bee, cat, ant] bee (by decide)

/-- C2 (negative lookup): for a capacity of at least 1 (a value of `size_t`), after any
sequence of calls of `insert` on a fresh table, `find(y)` for a `y` that was not
inserted returns `end()`. -/
theorem C2_negative_lookup {T : Type} [DecidableEq T] [TextOf T] (cap : Nat)
    (h1 : 1 ≤ cap) (h2 : cap < SIZE_LIMIT) (xs : List T) (y : T) (hy : y ∉ xs) :
    ∃ t it e, (HashTable.new cap).inserts xs = some t ∧ t.find y = some it ∧
      t.end_ = some e ∧ it = e ∧ it.eq e = true := by
  have hwf := wf_table_of cap h1 h2 (first_occurrences xs)
  obtain ⟨l, hl, hfind⟩ := find_eq _ hwf y
  obtain ⟨le, -, hend⟩ := end_eq _ hwf
  have hcap : (table_of cap (first_occurrences xs)).tableSize = cap := rfl
  rw [hcap] at hl hfind hend
  have hlt : bucket_index cap y < cap := bucket_index_lt h1 y
  rw [table_of_getElem, if_pos hlt] at hl
  have hmem : y ∉ l := by
    rw [← Option.some.inj hl]
    simp [mem_first_occurrences, hy]
  rw [if_neg hmem, hend] at hfind
  exact ⟨_, _, _, inserts_new cap h1 h2 xs, hfind, hend, rfl, by simp [iterator.eq]⟩

/-- Instance of C2: "dog" is looked up in the table of capacity 4 holding "ant", "bee"
and "cat". -/
theorem C2_negative_lookup_witness :
    ∃ t it e, (HashTable.new 4).inserts [ant, bee, cat, ant] = some t ∧
      t.find dog = some it ∧ t.end_ = some e ∧ it = e ∧ it.eq e = true :=
  C2_negative_lookup 4 (by decide) (by decide) [ant, bee, cat, ant] dog (by decide)

/-! ## Iteration -/

/-- C3 (iteration completeness): for a capacity of at least 1 (a value of `size_t`), after
any sequence of calls of `insert` on a fresh table, iterating from `begin()` to `end()`
produces every inserted value exactly once (the sequence has no repetition and its
members are the inserted values) and nothing else; the elements of the last bucket are
among them. -/
theorem C3_iteration_completeness {T : Type} [DecidableEq T] [TextOf T] (cap : Nat)
    (h1 : 1 ≤ cap) (h2 : cap < SIZE_LIMIT) (xs : List T) :
    ∃ t out, (HashTable.new cap).inserts xs = some t ∧
      (∀ fuel, t.size < fuel → t.iterate fuel = some out) ∧
      out.Nodup ∧ (∀ x, x ∈ out ↔ x ∈ xs) ∧
      (∀ l, t.hashTable[cap - 1]? = some l → ∀ x ∈ l, x ∈ out) := by
  refine ⟨_, _, inserts_new cap h1 h2 xs,
    fun fuel hf => iterate_eq _ (wf_table_of cap h1 h2 _) fuel hf,
    table_of_flatten_nodup cap _ (first_occurrences_nodup xs),
    fun x => (mem_table_of_flatten cap h1 _ x).trans (mem_first_occurrences xs x), ?_⟩
  intro l hl x hx
  exact List.mem_flatten.mpr ⟨l, List.getElem?_mem hl, hx⟩

/-- Instance of C3: capacity 4 and the inserts "ant", "bee", "cat", "ant"; the iteration
produces "ant", "cat" and "bee", each once. -/
theorem C3_iteration_completeness_witness :
    (∃ t out, (HashTable.new 4).inserts [ant, bee, cat, ant] = some t ∧
      (∀ fuel, t.size < fuel → t.iterate fuel = some out) ∧
      out.Nodup ∧ (∀ x, x ∈ out ↔ x ∈ [ant, bee, cat, ant]) ∧
      (∀ l, t.hashTable[4 - 1]? = some l → ∀ x ∈ l, x ∈ out)) ∧
    ((HashTable.new 4).inserts [ant, bee, cat, ant]).bind (fun t => t.iterate 4)
      = some [ant, cat, bee] :=
  ⟨C3_iteration_completeness 4 (by decide) (by decide) [ant, bee, cat, ant], by decide⟩

/-- C4 (idempotent insert): for a capacity of at least 1 (a value of `size_t`) and a table
built by inserts, `insert(x)` followed by `insert(x)` leaves the table of the first
`insert(x)`, and `insert(x)` of a value that is in the table leaves the table as it is. -/
theorem C4_idempotent_insert {T : Type} [DecidableEq T] [TextOf T] (cap : Nat)
    (h1 : 1 ≤ cap) (h2 : cap < SIZE_LIMIT) (xs : List T) (x : T) :
    ∃ t t1, (HashTable.new cap).inserts xs = some t ∧ t.insert x = some t1 ∧
      t1.insert x = some t1 ∧ (x ∈ t.hashTable.flatten → t1 = t) := by
  refine ⟨_, _, inserts_new cap h1 h2 xs, insert_table_of cap h1 h2 _ x, ?_, ?_⟩
  · rw [insert_table_of cap h1 h2]
    by_cases hx : x ∈ first_occurrences xs
    · simp [hx]
    · simp [hx]
  · intro hx
    rw [mem_table_of_flatten cap h1] at hx
    simp [hx]

/-- Instance of C4: "ant" is inserted into the table of capacity 4 that holds it. -/
theorem C4_idempotent_insert_witness :
    ∃ t t1, (HashTable.new 4).inserts [ant, bee, cat] = some t ∧ t.insert ant = some t1 ∧
      t1.insert ant = some t1 ∧ (ant ∈ t.hashTable.flatten → t1 = t) :=
  C4_idempotent_insert 4 (by decide) (by decide) [ant, bee, cat] ant

/-- C5 (iteration order): for a capacity of at least 1 (a value of `size_t`), after any
sequence of calls of `insert` on a fresh table, bucket `i` holds the inserted values of
bucket index `i` in the order of their first insertion, and iterating from `begin()` to
`end()` produces the concatenation of the buckets in ascending index. -/
theorem C5_iteration_order {T : Type} [DecidableEq T] [TextOf T] (cap : Nat)
    (h1 : 1 ≤ cap) (h2 : cap < SIZE_LIMIT) (xs : List T) :
    ∃ t, (HashTable.new cap).inserts xs = some t ∧
      t.hashTable = (List.range cap).map (fun i =>
        (first_occurrences xs).filter (fun y => decide (bucket_index cap y = i))) ∧
      (∀ fuel, t.size < fuel → t.iterate fuel = some t.hashTable.flatten) :=
  ⟨_, inserts_new cap h1 h2 xs, rfl,
    fun fuel hf => iterate_eq _ (wf_table_of cap h1 h2 _) fuel hf⟩

/-- Instance of C5: capacity 4 and the inserts "ant", "bee", "cat", "ant"; the iteration
produces ant, cat, bee. -/
theorem C5_iteration_order_witness :
    (∃ t, (HashTable.new 4).inserts [ant, bee, cat, ant] = some t ∧
      t.hashTable = (List.range 4).map (fun i =>
        (first_occurrences [ant, bee, cat, ant]).filter
          (fun y => decide (bucket_index 4 y = i))) ∧
      (∀ fuel, t.size < fuel → t.iterate fuel = some t.hashTable.flatten)) ∧
    (HashTable.new 4).inserts [ant, bee, cat, ant] = some ⟨[[ant, cat], [bee], [], []], 4⟩ ∧
    (⟨[[ant, cat], [bee], [], []], 4⟩ : HashTable string).iterate 4
      = some [ant, cat, bee] :=
  ⟨C5_iteration_order 4 (by decide) (by decide) [ant, bee, cat, ant], by decide, by decide⟩

/-! ## Insertion, hashing and construction -/

/-- C6 (insert postcondition): on a table of capacity at least 1 (a value of `size_t`), with
`index` the value `hash_it` returns for the text of `x`, `insert(x)` leaves bucket
`index` with `x` appended after its old content when the bucket holds no element equal
to `x`, and leaves the bucket as it is otherwise. -/
theorem C6_insert_postcondition {T : Type} [DecidableEq T] [TextOf T] (t : HashTable T)
    (h : WF t) (x : T) :
    ∃ index l t1, t.hash_it (TextOf.text_of x) = some index ∧
      index = hash_spec (TextOf.text_of x) t.tableSize ∧
      t.hashTable[index]? = some l ∧ t.insert x = some t1 ∧
      (x ∉ l → t1.hashTable[index]? = some (l ++ [x])) ∧
      (x ∈ l → t1.hashTable[index]? = some l) := by
  obtain ⟨l, hl, hins⟩ := insert_eq t h x
  have hi : bucket_index t.tableSize x < t.hashTable.length := by
    rw [h.len]; exact bucket_index_lt h.pos x
  refine ⟨_, l, _, hash_it_eq t h.pos x, ?_, hl, hins, ?_, ?_⟩
  · unfold bucket_index hash_spec
    rw [hash_loop_eq_foldl _ _ 0 0 (by omega)]
    rfl
  · intro hx
    simp [hx, hi]
  · intro hx
    simp [hx, hl]

/-- Instance of C6: "dog" is inserted into the table of capacity 4 holding "ant", "cat"
and "bee". -/
theorem C6_insert_postcondition_witness :
    ∃ index l t1,
      (⟨[[ant, cat], [bee], [], []], 4⟩ : HashTable string).hash_it (TextOf.text_of dog)
        = some index ∧
      index = hash_spec (TextOf.text_of dog) 4 ∧
      (⟨[[ant, cat], [bee], [], []], 4⟩ : HashTable string).hashTable[index]? = some l ∧
      (⟨[[ant, cat], [bee], [], []], 4⟩ : HashTable string).insert dog = some t1 ∧
      (dog ∉ l → t1.hashTable[index]? = some (l ++ [dog])) ∧
      (dog ∈ l → t1.hashTable[index]? = some l) :=
  C6_insert_postcondition ⟨[[ant, cat], [bee], [], []], 4⟩
    ⟨by decide, by decide, by decide⟩ dog

/-- C7 (hash definition): for a capacity of at least 1, `hash_it` returns for every text the
index of the specification: from 0, `h` becomes `h` shifted left by 2 bits XOR the
numeric code of the character, wrapped modulo `2 ^ 64`, for each character in order, and
the result is `h mod capacity`. -/
theorem C7_hash_definition {T : Type} (t : HashTable T) (key : string)
    (h : 1 ≤ t.tableSize) : t.hash_it key = some (hash_spec key t.tableSize) := by
  unfold hash_it hash_spec
  rw [hash_loop_eq_foldl key _ 0 0 (by omega)]
  simp [Nat.pos_iff_ne_zero.mp h]

/-- Instance of C7: the text "ant" and capacity 4. -/
theorem C7_hash_definition_witness :
    (HashTable.new 4 : HashTable string).hash_it ant = some (hash_spec ant 4) :=
  C7_hash_definition (HashTable.new 4) ant (by decide)

/-- C8 (range construction): for a capacity of at least 1 (a value of `size_t`), the range
constructor builds the table that an empty table of that capacity becomes by the calls
of `insert` on the elements of the sequence in order; the table holds every value of the
sequence once. -/
theorem C8_range_construction {T : Type} [DecidableEq T] [TextOf T] (cap : Nat)
    (h1 : 1 ≤ cap) (h2 : cap < SIZE_LIMIT) (xs : List T) :
    HashTable.new_from_range xs cap = (HashTable.new cap).inserts xs ∧
    ∃ t, HashTable.new_from_range xs cap = some t ∧ t.tableSize = cap ∧
      t.hashTable.length = cap ∧ t.hashTable.flatten.Nodup ∧
      ∀ x, x ∈ t.hashTable.flatten ↔ x ∈ xs := by
  have he : HashTable.new_from_range xs cap = (HashTable.new cap).inserts xs :=
    range_loop_eq_inserts xs _
  refine ⟨he, _, he.trans (inserts_new cap h1 h2 xs), rfl, by simp [table_of],
    table_of_flatten_nodup cap _ (first_occurrences_nodup xs),
    fun x => (mem_table_of_flatten cap h1 _ x).trans (mem_first_occurrences xs x)⟩

/-- Instance of C8: the sequence "x", "y", "x", "z" and capacity 8. -/
theorem C8_range_construction_witness :
    (HashTable.new_from_range [text_x, text_y, text_x, text_z] 8
        = (HashTable.new 8).inserts [text_x, text_y, text_x, text_z] ∧
      ∃ t, HashTable.new_from_range [text_x, text_y, text_x, text_z] 8 = some t ∧
        t.tableSize = 8 ∧ t.hashTable.length = 8 ∧ t.hashTable.flatten.Nodup ∧
        ∀ x, x ∈ t.hashTable.flatten ↔ x ∈ [text_x, text_y, text_x, text_z]) ∧
    HashTable.new_from_range [text_x, text_y, text_x, text_z] 8
      = some ⟨[[text_x], [text_y], [text_z], [], [], [], [], []], 8⟩ :=
  ⟨C8_range_construction 8 (by decide) (by decide) [text_x, text_y, text_x, text_z],
    by decide⟩

/-! ## Empty tables -/

/-- C9 (empty table): for a capacity of at least 1 (a value of `size_t`), on a freshly
constructed table `begin()` returns an iterator equal to `end()`, and so it does on
every table of that capacity whose buckets are all empty. -/
theorem C9_empty_table (T : Type) (cap : Nat) (h1 : 1 ≤ cap) (h2 : cap < SIZE_LIMIT) :
    (∃ b e, (HashTable.new cap : HashTable T).begin = some b ∧
      (HashTable.new cap : HashTable T).end_ = some e ∧ b.eq e = true) ∧
    (∀ t : HashTable T, t.tableSize = cap → t.hashTable.length = cap →
      (∀ l ∈ t.hashTable, l = []) →
      ∃ b e, t.begin = some b ∧ t.end_ = some e ∧ b.eq e = true) := by
  have key : ∀ t : HashTable T, t.tableSize = cap → t.hashTable.length = cap →
      (∀ l ∈ t.hashTable, l = []) →
      ∃ b e, t.begin = some b ∧ t.end_ = some e ∧ b.eq e = true := by
    intro t ht hl hempty
    have hwf : WF t := ⟨hl.trans ht.symm, ht ▸ h1, ht ▸ h2⟩
    obtain ⟨e, hb, he⟩ := begin_eq_end_of_empty t hwf hempty
    exact ⟨e, e, hb, he, by simp [iterator.eq]⟩
  refine ⟨key _ rfl (by simp [HashTable.new]) ?_, key⟩
  intro l hl
  exact List.eq_of_mem_replicate hl

/-- Instance of C9: the fresh table of capacity 4. -/
theorem C9_empty_table_witness :
    (∃ b e, (HashTable.new 4 : HashTable string).begin = some b ∧
      (HashTable.new 4 : HashTable string).end_ = some e ∧ b.eq e = true) ∧
    (∀ t : HashTable string, t.tableSize = 4 → t.hashTable.length = 4 →
      (∀ l ∈ t.hashTable, l = []) →
      ∃ b e, t.begin = some b ∧ t.end_ = some e ∧ b.eq e = true) :=
  C9_empty_table string 4 (by decide) (by decide)

/-- C10 (zero capacity), what the code does: on a table constructed with capacity 0, `end()`
computes the bucket index `tableSize - 1 = 2 ^ 64 - 1` and reads that bucket of an array
without buckets, so `end()` has no defined result; `begin()`, which returns `end()` for
capacity 0, and the iteration from `begin()` to `end()` have none either. -/
theorem C10_zero_capacity_end_out_of_range (T : Type) :
    size_t_sub (HashTable.new 0 : HashTable T).tableSize 1 = 18446744073709551615 ∧
    (HashTable.new 0 : HashTable T).hashTable.length = 0 ∧
    (HashTable.new 0 : HashTable T).end_ = none ∧
    (HashTable.new 0 : HashTable T).begin = none ∧
    ∀ fuel, (HashTable.new 0 : HashTable T).iterate fuel = none := by
  refine ⟨?_, rfl, rfl, rfl, fun fuel => rfl⟩
  show size_t_sub 0 1 = 18446744073709551615
  decide

/-! ## Position of `begin()`, invariants of `insert` -/

namespace HashTable

variable {T : Type}

theorem inserts_append [DecidableEq T] [TextOf T] (t : HashTable T) (xs ys : List T) :
    t.inserts (xs ++ ys) = (t.inserts xs).bind (fun t1 => t1.inserts ys) := by
  unfold inserts
  rw [List.foldlM_append]
  rfl

/-- A fresh table after the calls `insert(x)`, `x` in `xs` and then in `ys`. -/
theorem inserts_inserts_new [DecidableEq T] [TextOf T] (cap : Nat) (h1 : 1 ≤ cap)
    (h2 : cap < SIZE_LIMIT) (xs ys : List T) :
    ((new cap).inserts xs).bind (fun t1 => t1.inserts ys)
      = some (table_of cap (first_occurrences (xs ++ ys))) := by
  rw [← inserts_append, inserts_new cap h1 h2]

end HashTable

/-- C11 (position of `begin()`): on a table of capacity at least 1 (a value of `size_t`)
with a non-empty bucket, `begin()` is at position 0 of a non-empty bucket `b` before
which every bucket is empty, with the last bucket as end bound; its dereference is the
first element of bucket `b`, and it differs from `end()`. -/
theorem C11_begin_position {T : Type} (t : HashTable T) (h : WF t)
    (hne : ∃ l ∈ t.hashTable, l ≠ []) :
    ∃ it e b l a, t.begin = some it ∧ t.end_ = some e ∧
      it = ⟨b, 0, t.tableSize - 1⟩ ∧ t.hashTable[b]? = some l ∧ l.head? = some a ∧
      (∀ j l0, j < b → t.hashTable[j]? = some l0 → l0 = []) ∧
      t.deref it = some a ∧ it.ne e = true := by
  obtain ⟨le, hle, hend⟩ := end_eq t h
  obtain ⟨it, hit, hcase⟩ := begin_loop_spec t h le hle t.tableSize 0 (by omega)
  have hbegin : t.begin = some it := by
    unfold HashTable.begin
    rw [if_neg (Nat.pos_iff_ne_zero.mp h.pos)]
    exact hit
  rcases hcase with ⟨b, l, h1, h2, h3, -, h5, -⟩ | ⟨-, h2⟩
  · cases l with
    | nil => exact absurd rfl h3
    | cons a l2 =>
      refine ⟨it, _, b, a :: l2, a, hbegin, hend, h1, h2, rfl,
        fun j l0 hj => h5 j l0 (Nat.zero_le j) hj, ?_, ?_⟩
      · rw [h1]
        simp [deref, h2]
      · rw [h1]
        by_cases hb : b = t.tableSize - 1
        · rw [hb, hle] at h2
          have hll : le = a :: l2 := Option.some.inj h2
          simp [iterator.ne, iterator.eq, hll]
        · simp [iterator.ne, iterator.eq, hb]
  · exfalso
    obtain ⟨l, hl, hl0⟩ := hne
    simp only [List.drop_zero] at h2
    have hx : ∀ x, x ∉ l := fun x hx => by
      have : x ∈ t.hashTable.flatten := List.mem_flatten.mpr ⟨l, hl, hx⟩
      rw [h2] at this
      simp at this
    exact hl0 (List.eq_nil_iff_forall_not_mem.mpr hx)

/-- Instance of C11: the table of capacity 4 with "ant" in bucket 0 and "bee", "dog" in
bucket 3. -/
theorem C11_begin_position_witness :
    ∃ it e b l a, table_second.begin = some it ∧ table_second.end_ = some e ∧
      it = ⟨b, 0, table_second.tableSize - 1⟩ ∧ table_second.hashTable[b]? = some l ∧
      l.head? = some a ∧
      (∀ j l0, j < b → table_second.hashTable[j]? = some l0 → l0 = []) ∧
      table_second.deref it = some a ∧ it.ne e = true :=
  C11_begin_position table_second ⟨by decide, by decide, by decide⟩
    ⟨[ant], by decide, by decide⟩

/-- C12 (no duplicates): for a capacity of at least 1 (a value of `size_t`), the table
built by the range constructor from `xs` (a fresh table when `xs` is empty) and any
further calls of `insert` holds no value twice: no bucket has a repetition, no value is
in two buckets, and the concatenation of the buckets has no repetition. -/
theorem C12_no_duplicates {T : Type} [DecidableEq T] [TextOf T] (cap : Nat)
    (h1 : 1 ≤ cap) (h2 : cap < SIZE_LIMIT) (xs ys : List T) :
    ∃ t, (HashTable.new_from_range xs cap).bind (fun t1 => t1.inserts ys) = some t ∧
      (∀ l ∈ t.hashTable, l.Nodup) ∧
      (∀ (i j : Nat) (l1 l2 : List T), t.hashTable[i]? = some l1 →
        t.hashTable[j]? = some l2 → i ≠ j → ∀ x ∈ l1, x ∉ l2) ∧
      t.hashTable.flatten.Nodup := by
  have he : HashTable.new_from_range xs cap = (HashTable.new cap).inserts xs :=
    range_loop_eq_inserts xs _
  have hn := table_of_flatten_nodup cap _ (first_occurrences_nodup (xs ++ ys))
  refine ⟨_, by rw [he]; exact inserts_inserts_new cap h1 h2 xs ys,
    (List.nodup_flatten.mp hn).1, ?_, hn⟩
  intro i j l1 l2 hi hj hij x hx1 hx2
  rw [table_of_getElem] at hi hj
  split at hi
  · split at hj
    · rw [← Option.some.inj hi] at hx1
      rw [← Option.some.inj hj] at hx2
      have e1 := (List.mem_filter.mp hx1).2
      have e2 := (List.mem_filter.mp hx2).2
      simp only [decide_eq_true_eq] at e1 e2
      exact hij (e1.symm.trans e2)
    · simp at hj
  · simp at hi

/-- Instance of C12: range construction from "x", "y", "x" with capacity 8, then the
inserts "z", "y". -/
theorem C12_no_duplicates_witness :
    ∃ t, (HashTable.new_from_range [text_x, text_y, text_x] 8).bind
        (fun t1 => t1.inserts [text_z, text_y]) = some t ∧
      (∀ l ∈ t.hashTable, l.Nodup) ∧
      (∀ (i j : Nat) (l1 l2 : List string), t.hashTable[i]? = some l1 →
        t.hashTable[j]? = some l2 → i ≠ j → ∀ x ∈ l1, x ∉ l2) ∧
      t.hashTable.flatten.Nodup :=
  C12_no_duplicates 8 (by decide) (by decide) [text_x, text_y, text_x] [text_z, text_y]

/-- C13 (insert frame): on a table of capacity at least 1 (a value of `size_t`),
`insert(x)` leaves `tableSize` and the number of buckets as they are and leaves every
bucket other than the bucket of `x` as it is; the bucket of `x` keeps its elements. -/
theorem C13_insert_frame {T : Type} [DecidableEq T] [TextOf T] (t : HashTable T)
    (h : WF t) (x : T) :
    ∃ t1, t.insert x = some t1 ∧ t1.tableSize = t.tableSize ∧
      t1.hashTable.length = t.hashTable.length ∧
      (∀ j, j ≠ bucket_index t.tableSize x → t1.hashTable[j]? = t.hashTable[j]?) ∧
      (∃ l, t.hashTable[bucket_index t.tableSize x]? = some l ∧
        (t1.hashTable[bucket_index t.tableSize x]? = some l ∨
         t1.hashTable[bucket_index t.tableSize x]? = some (l ++ [x]))) := by
  obtain ⟨l, hl, hins⟩ := insert_eq t h x
  have hi : bucket_index t.tableSize x < t.hashTable.length := by
    rw [h.len]; exact bucket_index_lt h.pos x
  by_cases hx : x ∈ l
  · rw [if_pos hx] at hins
    exact ⟨t, hins, rfl, rfl, fun j _ => rfl, l, hl, Or.inl hl⟩
  · rw [if_neg hx] at hins
    refine ⟨_, hins, rfl, by simp, fun j hj => ?_, l, hl, Or.inr ?_⟩
    · exact List.getElem?_set_ne (Ne.symm hj)
    · simp [hi]

/-- Instance of C13: "dog" is inserted into the table of capacity 4 holding "ant", "cat"
and "bee". -/
theorem C13_insert_frame_witness :
    ∃ t1, table_abc.insert dog = some t1 ∧ t1.tableSize = table_abc.tableSize ∧
      t1.hashTable.length = table_abc.hashTable.length ∧
      (∀ j, j ≠ bucket_index table_abc.tableSize dog →
        t1.hashTable[j]? = table_abc.hashTable[j]?) ∧
      (∃ l, table_abc.hashTable[bucket_index table_abc.tableSize dog]? = some l ∧
        (t1.hashTable[bucket_index table_abc.tableSize dog]? = some l ∨
         t1.hashTable[bucket_index table_abc.tableSize dog]? = some (l ++ [dog]))) :=
  C13_insert_frame table_abc ⟨by decide, by decide, by decide⟩ dog

/-! ## One step of the iterator -/

namespace HashTable

variable {T : Type}

/-- The buckets that the skipping loop passes are empty. -/
theorem skip_empty_passed (H : List (List T)) (last : Nat) :
    ∀ (rest : List (List T)) (b b1 : Nat), rest = H.drop b →
      skip_empty last rest b = some b1 →
      ∀ j l0, b ≤ j → j < b1 → H[j]? = some l0 → l0 = [] := by
  intro rest
  induction rest with
  | nil =>
    intro b b1 _ hs j l0 hbj hj _
    simp only [skip_empty] at hs
    split at hs
    · simp at hs
    · have := Option.some.inj hs
      omega
  | cons l rest1 ih =>
    intro b b1 hrest hs j l0 hbj hj hj0
    have hbl : b < H.length := by
      by_contra hcon
      have : H.drop b = [] := List.drop_eq_nil_of_le (by omega)
      rw [this] at hrest
      simp at hrest
    rw [List.drop_eq_getElem_cons hbl] at hrest
    obtain ⟨hl, hr⟩ := List.cons.inj hrest
    simp only [skip_empty] at hs
    split at hs
    · rename_i hc
      simp only [Bool.and_eq_true, decide_eq_true_eq, List.isEmpty_iff] at hc
      by_cases hjb : j = b
      · rw [hjb, List.getElem?_eq_getElem hbl, ← hl] at hj0
        rw [← Option.some.inj hj0]
        exact hc.2
      · exact ih (b + 1) b1 hr hs j l0 (by omega) hj hj0
    · have := Option.some.inj hs
      omega

theorem length_flatten_drop (H : List (List T)) (b : Nat) (l : List T)
    (h : H[b]? = some l) :
    (H.drop b).flatten.length = l.length + (H.drop (b + 1)).flatten.length := by
  rw [drop_cons_of_getElem H b l h, List.flatten_cons, List.length_append]

/-- What `operator++` does to an iterator at an element, by the three cases of lines
69-81. -/
theorem advance_step (t : HashTable T) (h : WF t) (b k : Nat) (l : List T)
    (hl : t.hashTable[b]? = some l) (hk : k < l.length) :
    ∃ it1, t.advance ⟨b, k, t.tableSize - 1⟩ = some it1 ∧
      it1.lastBucket = t.tableSize - 1 ∧
      t.remaining it1 + 1 = t.remaining ⟨b, k, t.tableSize - 1⟩ ∧
      ((k + 1 < l.length ∧ it1 = ⟨b, k + 1, t.tableSize - 1⟩) ∨
       (k + 1 = l.length ∧ b = t.tableSize - 1 ∧ it1 = ⟨b, k + 1, t.tableSize - 1⟩) ∨
       (k + 1 = l.length ∧ b ≠ t.tableSize - 1 ∧
          ∃ b1 l1, it1 = ⟨b1, 0, t.tableSize - 1⟩ ∧ b < b1 ∧ b1 ≤ t.tableSize - 1 ∧
            t.hashTable[b1]? = some l1 ∧
            (∀ j l0, b < j → j < b1 → t.hashTable[j]? = some l0 → l0 = []) ∧
            (l1 = [] → b1 = t.tableSize - 1))) := by
  have hpos := h.pos
  have hlen := h.len
  have hbl : b < t.hashTable.length := (List.getElem?_eq_some.mp hl).1
  have hR := length_flatten_drop t.hashTable b l hl
  by_cases hk1 : k + 1 < l.length
  · refine ⟨⟨b, k + 1, t.tableSize - 1⟩, ?_, rfl, ?_, Or.inl ⟨hk1, rfl⟩⟩
    · simp [advance, hl, hk, Nat.ne_of_lt hk1]
    · simp only [remaining]
      omega
  · have hk2 : k + 1 = l.length := by omega
    by_cases hb : b = t.tableSize - 1
    · refine ⟨⟨b, k + 1, t.tableSize - 1⟩, ?_, rfl, ?_, Or.inr (Or.inl ⟨hk2, hb, rfl⟩)⟩
      · unfold advance
        simp only [hl]
        simp [hk, hb]
      · simp only [remaining]
        omega
    · obtain ⟨b1, l1, hs1, hs2, hs3, hs4, hs5, hs6⟩ :=
        skip_empty_spec t.hashTable (t.tableSize - 1) (by omega)
          (t.hashTable.drop (b + 1)) (b + 1) rfl (by omega)
      have hpassed := skip_empty_passed t.hashTable (t.tableSize - 1)
        (t.hashTable.drop (b + 1)) (b + 1) b1 rfl hs1
      refine ⟨⟨b1, 0, t.tableSize - 1⟩, ?_, rfl, ?_,
        Or.inr (Or.inr ⟨hk2, hb, b1, l1, rfl, by omega, hs4, hs2,
          fun j l0 h1 h2 h3 => hpassed j l0 (by omega) h2 h3, hs6⟩)⟩
      · simp [advance, hl, hk, hk2, hb, hs1, hs2]
      · simp only [remaining]
        have := congrArg List.length hs5
        omega

theorem remaining_pos_of_at_element (t : HashTable T) (it : iterator)
    (ha : t.at_element it) : 0 < t.remaining it := by
  obtain ⟨-, l, hl, hk⟩ := ha
  have hR := length_flatten_drop t.hashTable it.bucket l hl
  simp only [remaining]
  omega

/-- One `operator++` from an element: one element less remains; the new position is an
element when something remains, and what `end()` returns when nothing remains. -/
theorem advance_at_element (t : HashTable T) (h : WF t) (le : List T)
    (hle : t.hashTable[t.tableSize - 1]? = some le) (it : iterator)
    (ha : t.at_element it) :
    ∃ it1, t.advance it = some it1 ∧ t.remaining it1 + 1 = t.remaining it ∧
      (0 < t.remaining it1 → t.at_element it1) ∧
      (t.remaining it1 = 0 → it1 = ⟨t.tableSize - 1, le.length, t.tableSize - 1⟩) := by
  have hpos := h.pos
  have hlen := h.len
  obtain ⟨b, k, lb⟩ := it
  obtain ⟨hlb, l, hl, hk⟩ := ha
  simp only at hlb hl hk
  subst hlb
  obtain ⟨it1, hadv, hlast, hrem, hcase⟩ := advance_step t h b k l hl hk
  have hR := length_flatten_drop t.hashTable b l hl
  refine ⟨it1, hadv, hrem, ?_, ?_⟩
  · intro hpos1
    rcases hcase with ⟨h1, rfl⟩ | ⟨h1, h2, rfl⟩ | ⟨h1, h2, b1, l1, rfl, h3, h4, h5, h6, h7⟩
    · exact ⟨rfl, l, hl, h1⟩
    · exfalso
      have hrest : t.hashTable.drop (b + 1) = [] :=
        List.drop_eq_nil_of_le (by omega)
      simp only [remaining, hrest, List.flatten_nil, List.length_nil] at hpos1 hR
      omega
    · refine ⟨rfl, l1, h5, ?_⟩
      cases l1 with
      | nil =>
        exfalso
        have hb1 := h7 rfl
        have hR1 := length_flatten_drop t.hashTable b1 [] h5
        have hrest : t.hashTable.drop (b1 + 1) = [] :=
          List.drop_eq_nil_of_le (by omega)
        simp only [remaining, hrest, List.flatten_nil, List.length_nil] at hpos1 hR1
        omega
      | cons a l2 => simp
  · intro hzero
    rcases hcase with ⟨h1, rfl⟩ | ⟨h1, h2, rfl⟩ | ⟨h1, h2, b1, l1, rfl, h3, h4, h5, h6, h7⟩
    · exfalso
      simp only [remaining] at hzero
      omega
    · rw [h2, hle] at hl
      have hll : le = l := Option.some.inj hl
      rw [h2, h1, hll]
    · have hR1 := length_flatten_drop t.hashTable b1 l1 h5
      simp only [remaining] at hzero
      have hl1 : l1 = [] := List.length_eq_zero.mp (by omega)
      have hb1 := h7 hl1
      rw [hb1, hle] at h5
      have hll : le = l1 := Option.some.inj h5
      rw [hb1, hll, hl1]
      rfl

/-- After `n` steps from an element, `n` at most the number of elements that remain. -/
theorem advance_n_at_element (t : HashTable T) (h : WF t) (le : List T)
    (hle : t.hashTable[t.tableSize - 1]? = some le) :
    ∀ (n : Nat) (it : iterator), t.at_element it → n ≤ t.remaining it →
      ∃ itn, t.advance_n n it = some itn ∧ t.remaining itn + n = t.remaining it ∧
        (n < t.remaining it → t.at_element itn) ∧
        (n = t.remaining it → itn = ⟨t.tableSize - 1, le.length, t.tableSize - 1⟩) := by
  intro n
  induction n with
  | zero =>
    intro it ha _
    have := remaining_pos_of_at_element t it ha
    exact ⟨it, rfl, rfl, fun _ => ha, fun h0 => by omega⟩
  | succ n ih =>
    intro it ha hn
    obtain ⟨it1, hadv, hrem, hat, hz⟩ := advance_at_element t h le hle it ha
    by_cases h0 : t.remaining it1 = 0
    · have hn0 : n = 0 := by omega
      subst hn0
      refine ⟨it1, by simp [advance_n, hadv], by omega, fun hlt => by omega,
        fun _ => hz h0⟩
    · obtain ⟨itn, h1, h2, h3, h4⟩ := ih it1 (hat (by omega)) (by omega)
      refine ⟨itn, by simp [advance_n, hadv, h1], by omega,
        fun hlt => h3 (by omega), fun heq => h4 (by omega)⟩

/-- An iterator at an element differs from `end()`, is in the bucket array, and can be
dereferenced. -/
theorem at_element_ne_end (t : HashTable T) (h : WF t) (le : List T)
    (hle : t.hashTable[t.tableSize - 1]? = some le) (it : iterator)
    (ha : t.at_element it) :
    it.ne ⟨t.tableSize - 1, le.length, t.tableSize - 1⟩ = true ∧
      it.bucket < t.tableSize ∧ ∃ x, t.deref it = some x := by
  obtain ⟨-, l, hl, hk⟩ := ha
  have hbl : it.bucket < t.hashTable.length := (List.getElem?_eq_some.mp hl).1
  refine ⟨?_, h.len ▸ hbl, l[it.node], by simp [deref, hl, List.getElem?_eq_getElem hk]⟩
  by_cases hb : it.bucket = t.tableSize - 1
  · rw [hb, hle] at hl
    have hll : le = l := Option.some.inj hl
    subst hll
    simp [iterator.ne, iterator.eq, hb, Nat.ne_of_lt hk]
  · simp [iterator.ne, iterator.eq, hb]

end HashTable

/-! ## `operator++` across buckets, traversal -/

/-- C14 (advance across buckets): on a table of capacity at least 1 (a value of `size_t`),
for an iterator at element `k` of bucket `b` with the last bucket as end bound:
when `k` is not the last element of the bucket, `operator++` moves to element `k + 1` of
bucket `b`; when it is and `b` is not the last bucket, `operator++` moves to position 0
of a bucket of higher index, having passed empty buckets only, and that position is the
first element of a non-empty bucket (the last bucket included), or else every bucket
after `b` is empty and the iterator equals `end()`. -/
theorem C14_advance_across_buckets {T : Type} (t : HashTable T) (h : WF t) (b k : Nat)
    (l : List T) (hl : t.hashTable[b]? = some l) (hk : k < l.length) :
    (k + 1 < l.length →
      t.advance ⟨b, k, t.tableSize - 1⟩ = some ⟨b, k + 1, t.tableSize - 1⟩) ∧
    (k + 1 = l.length → b ≠ t.tableSize - 1 →
      ∃ it1 e, t.advance ⟨b, k, t.tableSize - 1⟩ = some it1 ∧ t.end_ = some e ∧
        it1.node = 0 ∧ it1.lastBucket = t.tableSize - 1 ∧
        b < it1.bucket ∧ it1.bucket ≤ t.tableSize - 1 ∧
        (∀ j l0, b < j → j < it1.bucket → t.hashTable[j]? = some l0 → l0 = []) ∧
        ((∃ a l1, t.hashTable[it1.bucket]? = some (a :: l1) ∧ t.deref it1 = some a ∧
            it1.ne e = true) ∨
         ((∀ j l0, b < j → t.hashTable[j]? = some l0 → l0 = []) ∧ it1.eq e = true))) := by
  have hpos := h.pos
  have hlen := h.len
  obtain ⟨le, hle, hend⟩ := end_eq t h
  obtain ⟨it1, hadv, hlast, -, hcase⟩ := advance_step t h b k l hl hk
  constructor
  · intro hk1
    rcases hcase with ⟨-, rfl⟩ | ⟨h1, -⟩ | ⟨h1, -⟩
    · exact hadv
    · omega
    · omega
  · intro hk2 hb
    rcases hcase with ⟨h1, -⟩ | ⟨-, h2, -⟩ | ⟨-, -, b1, l1, rfl, h3, h4, h5, h6, h7⟩
    · omega
    · exact absurd h2 hb
    · refine ⟨_, _, hadv, hend, rfl, rfl, h3, h4, h6, ?_⟩
      cases l1 with
      | cons a l2 =>
        left
        refine ⟨a, l2, h5, by simp [deref, h5], ?_⟩
        have hat : t.at_element ⟨b1, 0, t.tableSize - 1⟩ := ⟨rfl, a :: l2, h5, by simp⟩
        exact (at_element_ne_end t h le hle _ hat).1
      | nil =>
        right
        have hb1 := h7 rfl
        rw [hb1, hle] at h5
        have hle0 : le = [] := Option.some.inj h5
        refine ⟨?_, by simp [iterator.eq, hb1, hle0]⟩
        intro j l0 hbj hj
        have hjl : j < t.hashTable.length := (List.getElem?_eq_some.mp hj).1
        by_cases hjb : j < b1
        · exact h6 j l0 hbj hjb hj
        · have hje : j = t.tableSize - 1 := by omega
          rw [hje, hle] at hj
          rw [← Option.some.inj hj, hle0]

/-- Instance of C14: from "ant", the only element of bucket 0, over two empty buckets to
"bee", the first element of the last bucket. -/
theorem C14_advance_across_buckets_witness :
    ((0 + 1 < [ant].length →
      table_last.advance ⟨0, 0, table_last.tableSize - 1⟩
        = some ⟨0, 0 + 1, table_last.tableSize - 1⟩) ∧
    (0 + 1 = [ant].length → 0 ≠ table_last.tableSize - 1 →
      ∃ it1 e, table_last.advance ⟨0, 0, table_last.tableSize - 1⟩ = some it1 ∧
        table_last.end_ = some e ∧
        it1.node = 0 ∧ it1.lastBucket = table_last.tableSize - 1 ∧
        0 < it1.bucket ∧ it1.bucket ≤ table_last.tableSize - 1 ∧
        (∀ j l0, 0 < j → j < it1.bucket → table_last.hashTable[j]? = some l0 → l0 = []) ∧
        ((∃ a l1, table_last.hashTable[it1.bucket]? = some (a :: l1) ∧
            table_last.deref it1 = some a ∧ it1.ne e = true) ∨
         ((∀ j l0, 0 < j → table_last.hashTable[j]? = some l0 → l0 = []) ∧
            it1.eq e = true)))) ∧
    table_last.advance ⟨0, 0, 3⟩ = some ⟨3, 0, 3⟩ ∧
    table_last.deref ⟨3, 0, 3⟩ = some bee :=
  ⟨C14_advance_across_buckets table_last ⟨by decide, by decide, by decide⟩ 0 0 [ant]
      (by decide) (by decide),
    by decide, by decide⟩

/-- C15 as stated fails: in the table of capacity 4 with "ant" in bucket 0 and "bee",
"dog" in the last bucket, `operator++` on the iterator at "ant" moves the bucket onto the
last bucket and the node to the first element "bee" of it, not to its end; the result
differs from `end()`. -/
theorem C15_counterexample :
    table_last.advance ⟨0, 0, 3⟩ = some ⟨3, 0, 3⟩ ∧
    table_last.end_ = some ⟨3, 2, 3⟩ ∧
    iterator.eq ⟨3, 0, 3⟩ ⟨3, 2, 3⟩ = false ∧
    table_last.deref ⟨3, 0, 3⟩ = some bee := by
  decide

/-- C15 amended (end-bound bucket): on a table of capacity at least 1 (a value of
`size_t`), when `operator++` on an iterator at the last element of a bucket other than
the last bucket moves the bucket onto the last bucket, the node is set to the begin of
the last bucket: the iterator reads the first element of the last bucket if there is one,
and it equals `end()` exactly when the last bucket is empty. -/
theorem C15_end_bound_bucket_begin {T : Type} (t : HashTable T) (h : WF t) (b k : Nat)
    (l : List T) (hl : t.hashTable[b]? = some l) (hk : k + 1 = l.length)
    (hb : b ≠ t.tableSize - 1) :
    ∃ it1 e le, t.advance ⟨b, k, t.tableSize - 1⟩ = some it1 ∧ t.end_ = some e ∧
      t.hashTable[t.tableSize - 1]? = some le ∧
      (it1.bucket = t.tableSize - 1 →
        it1.node = 0 ∧ t.deref it1 = le.head? ∧ (it1.eq e = true ↔ le = [])) := by
  obtain ⟨le, hle, hend⟩ := end_eq t h
  obtain ⟨it1, hadv, -, -, hcase⟩ := advance_step t h b k l hl (by omega)
  refine ⟨it1, _, le, hadv, hend, hle, ?_⟩
  intro hlastb
  rcases hcase with ⟨h1, -⟩ | ⟨-, h2, -⟩ | ⟨-, -, b1, l1, rfl, -, -, h5, -, -⟩
  · omega
  · exact absurd h2 hb
  · simp only at hlastb
    subst hlastb
    refine ⟨rfl, ?_, ?_⟩
    · simp [deref, hle, List.head?_eq_getElem?]
    · cases le with
      | nil => simp [iterator.eq]
      | cons a l2 => simp [iterator.eq]

/-- Instance of the amended C15 on the table of the counterexample. -/
theorem C15_end_bound_bucket_begin_witness :
    ∃ it1 e le, table_last.advance ⟨0, 0, table_last.tableSize - 1⟩ = some it1 ∧
      table_last.end_ = some e ∧
      table_last.hashTable[table_last.tableSize - 1]? = some le ∧
      (it1.bucket = table_last.tableSize - 1 →
        it1.node = 0 ∧ table_last.deref it1 = le.head? ∧ (it1.eq e = true ↔ le = [])) :=
  C15_end_bound_bucket_begin table_last ⟨by decide, by decide, by decide⟩ 0 0 [ant]
    (by decide) (by decide) (by decide)

/-- C16 (traversal terminates): on a table of capacity at least 1 (a value of `size_t`)
holding `n` elements, `n` applications of `operator++` from `begin()` reach an iterator
equal to `end()`; each of the `n` iterators before it differs from `end()`, is in the
bucket array, can be dereferenced and advanced, and the advance stays in the bucket
array; the loop from `begin()` to `end()` ends after `n` elements. -/
theorem C16_traversal_terminates {T : Type} (t : HashTable T) (h : WF t) :
    ∃ b e, t.begin = some b ∧ t.end_ = some e ∧
      (∃ itn, t.advance_n t.size b = some itn ∧ itn.eq e = true) ∧
      (∀ k, k < t.size → ∃ itk x it1, t.advance_n k b = some itk ∧ itk.ne e = true ∧
        itk.bucket < t.tableSize ∧ t.deref itk = some x ∧
        t.advance itk = some it1 ∧ it1.bucket < t.tableSize) ∧
      ∃ out, t.iterate (t.size + 1) = some out ∧ out.length = t.size := by
  have hpos := h.pos
  obtain ⟨le, hle, hend⟩ := end_eq t h
  obtain ⟨it, hit, hcase⟩ := begin_loop_spec t h le hle t.tableSize 0 (by omega)
  have hbegin : t.begin = some it := by
    unfold HashTable.begin
    rw [if_neg (Nat.pos_iff_ne_zero.mp h.pos)]
    exact hit
  refine ⟨it, _, hbegin, hend, ?_, ?_,
    ⟨_, iterate_eq t h (t.size + 1) (Nat.lt_succ_self _), rfl⟩⟩
  · rcases hcase with ⟨b, l, h1, h2, h3, -, -, h6⟩ | ⟨h1, h2⟩
    · have hat : t.at_element it := by
        rw [h1]; exact ⟨rfl, l, h2, List.length_pos.mpr h3⟩
      have hrem : t.remaining it = t.size := by
        rw [h1]
        simp only [remaining, HashTable.size, h6, List.drop_zero, Nat.sub_zero]
      obtain ⟨itn, hn1, -, -, hn4⟩ :=
        advance_n_at_element t h le hle t.size it hat (by omega)
      exact ⟨itn, hn1, by rw [hn4 hrem.symm]; simp [iterator.eq]⟩
    · simp only [List.drop_zero] at h2
      have hsz : t.size = 0 := by simp [HashTable.size, h2]
      rw [hsz]
      exact ⟨it, rfl, by rw [h1]; simp [iterator.eq]⟩
  · intro k hk
    rcases hcase with ⟨b, l, h1, h2, h3, -, -, h6⟩ | ⟨h1, h2⟩
    · have hat : t.at_element it := by
        rw [h1]; exact ⟨rfl, l, h2, List.length_pos.mpr h3⟩
      have hrem : t.remaining it = t.size := by
        rw [h1]
        simp only [remaining, HashTable.size, h6, List.drop_zero, Nat.sub_zero]
      obtain ⟨itk, hk1, -, hk3, -⟩ :=
        advance_n_at_element t h le hle k it hat (by omega)
      have hatk := hk3 (by omega)
      obtain ⟨hne, hbk, x, hx⟩ := at_element_ne_end t h le hle itk hatk
      obtain ⟨it1, ha1, -, ha3, ha4⟩ := advance_at_element t h le hle itk hatk
      refine ⟨itk, x, it1, hk1, hne, hbk, hx, ha1, ?_⟩
      by_cases h0 : t.remaining it1 = 0
      · rw [ha4 h0]
        show t.tableSize - 1 < t.tableSize
        omega
      · exact (at_element_ne_end t h le hle it1 (ha3 (by omega))).2.1
    · simp only [List.drop_zero] at h2
      have hsz : t.size = 0 := by simp [HashTable.size, h2]
      omega

/-- Instance of C16: the table of capacity 4 with "ant" in bucket 0 and "bee", "dog" in
the last bucket. -/
theorem C16_traversal_terminates_witness :
    ∃ b e, table_last.begin = some b ∧ table_last.end_ = some e ∧
      (∃ itn, table_last.advance_n table_last.size b = some itn ∧ itn.eq e = true) ∧
      (∀ k, k < table_last.size → ∃ itk x it1, table_last.advance_n k b = some itk ∧
        itk.ne e = true ∧ itk.bucket < table_last.tableSize ∧
        table_last.deref itk = some x ∧
        table_last.advance itk = some it1 ∧ it1.bucket < table_last.tableSize) ∧
      ∃ out, table_last.iterate (table_last.size + 1) = some out ∧
        out.length = table_last.size :=
  C16_traversal_terminates table_last ⟨by decide, by decide, by decide⟩

/-! ## The formatted dump -/

namespace HashTable

variable {T : Type}

/-- The loop of the dump writes, for the elements the loop of the iteration reads, the
text of each followed by a space. -/
theorem dump_loop_eq (put : T → string) (t : HashTable T) :
    ∀ (fuel : Nat) (it e : iterator) (os : string),
      dump_loop put t fuel it e os = (for_loop t fuel it e).map
        (fun out => os ++ (out.map (fun x => put x ++ [32])).flatten) := by
  intro fuel
  induction fuel with
  | zero => intro it e os; rfl
  | succ fuel ih =>
    intro it e os
    rw [dump_loop, for_loop]
    by_cases hne : it.ne e = true
    · simp only [hne, if_true]
      cases hd : t.deref it with
      | none => rfl
      | some x =>
        cases ha : t.advance it with
        | none => rfl
        | some it1 =>
          simp only [ih]
          cases for_loop t fuel it1 e with
          | none => rfl
          | some out => simp
    · simp [hne]

theorem dump_eq (put : T → string) (t : HashTable T) (h : WF t) (fuel : Nat)
    (hf : t.size < fuel) (os : string) :
    t.dump put fuel os
      = some (os ++ (t.hashTable.flatten.map (fun x => put x ++ [32])).flatten) := by
  have hit := iterate_eq t h fuel hf
  unfold iterate at hit
  unfold dump
  cases hb : t.begin with
  | none => simp [hb] at hit
  | some b =>
    cases he : t.end_ with
    | none => simp [hb, he] at hit
    | some e =>
      simp only [hb, he] at hit
      simp only [dump_loop_eq, hit, Option.map_some']

theorem flatten_map_space (texts : List string) (h : texts ≠ []) :
    (texts.map (fun x => x ++ [32])).flatten = separated_by_space texts ++ [32] := by
  induction texts with
  | nil => exact absurd rfl h
  | cons a rest ih =>
    cases rest with
    | nil => simp [separated_by_space, List.intercalate]
    | cons b r =>
      have := ih (by simp)
      simp only [List.map_cons, List.flatten_cons] at this ⊢
      rw [this]
      simp [separated_by_space, List.intercalate, List.intersperse]

end HashTable

/-- C17 as stated fails: the dump of the table of capacity 4 that holds only "ant" is
"ant" followed by a space, not "ant". -/
theorem C17_counterexample :
    table_ant.iterate 2 = some [ant] ∧
    table_ant.dump (fun x => x) 2 [] = some (ant ++ [32]) ∧
    table_ant.dump (fun x => x) 2 [] ≠ some (separated_by_space [ant]) := by
  decide

/-- C17 amended (formatted dump): on a table of capacity at least 1 (a value of `size_t`)
the dump writes, after what the stream holds, the text of each element in the order of
the iteration from `begin()` to `end()`, each followed by a single space: for a
non-empty table the texts separated by single spaces and one more space at the end, for
an empty table nothing. -/
theorem C17_dump_space_after_each {T : Type} (put : T → string) (t : HashTable T)
    (h : WF t) (fuel : Nat) (hf : t.size < fuel) (os : string) :
    ∃ elems out, t.iterate fuel = some elems ∧ t.dump put fuel os = some out ∧
      out = os ++ (elems.map (fun x => put x ++ [32])).flatten ∧
      (elems ≠ [] → out = os ++ (separated_by_space (elems.map put) ++ [32])) ∧
      (elems = [] → out = os) := by
  refine ⟨_, _, iterate_eq t h fuel hf, dump_eq put t h fuel hf os, rfl, ?_, ?_⟩
  · intro hne
    have := flatten_map_space (t.hashTable.flatten.map put) (by simpa using hne)
    rw [List.map_map] at this
    rw [← this]
    rfl
  · intro he
    rw [he]
    simp

/-- Instance of the amended C17: the dump of the table of capacity 4 holding "ant", "cat"
and "bee" is "ant cat bee " with the space at the end. -/
theorem C17_dump_space_after_each_witness :
    (∃ elems out, table_abc.iterate 4 = some elems ∧
      table_abc.dump (fun x => x) 4 [] = some out ∧
      out = [] ++ (elems.map (fun x => (fun x => x) x ++ [32])).flatten ∧
      (elems ≠ [] →
        out = [] ++ (separated_by_space (elems.map (fun x => x)) ++ [32])) ∧
      (elems = [] → out = [])) ∧
    table_abc.dump (fun x => x) 4 []
      = some (ant ++ [32] ++ cat ++ [32] ++ bee ++ [32]) :=
  ⟨C17_dump_space_after_each (fun x => x) table_abc ⟨by decide, by decide, by decide⟩ 4
      (by decide) [], by decide⟩

/-! ## Placement of the elements, range of the bucket index -/

namespace HashTable

variable {T : Type}

theorem bucket_index_eq_hash_spec [TextOf T] (cap : Nat) (x : T) :
    bucket_index cap x = hash_spec (TextOf.text_of x) cap := by
  unfold bucket_index hash_spec
  rw [hash_loop_eq_foldl _ _ 0 0 (by omega)]
  rfl

theorem testBit_eq_of_mod_eq {a b k j : Nat} (h : a % 2 ^ k = b % 2 ^ k) (hj : j < k) :
    a.testBit j = b.testBit j := by
  have := congrArg (fun n => n.testBit j) h
  simpa [Nat.testBit_mod_two_pow, hj] using this

/-- One step of the hash moves the bits on which two running values agree two places
up. -/
theorem hash_step_mod (a b k : Nat) (c : Int) (h : a % 2 ^ k = b % 2 ^ k) :
    hash_step_spec a c % 2 ^ (k + 2) = hash_step_spec b c % 2 ^ (k + 2) := by
  rw [← hash_step_eq, ← hash_step_eq]
  apply Nat.eq_of_testBit_eq
  intro i
  show ((size_t_shl a 2 ^^^ char_to_size_t c) % 2 ^ (k + 2)).testBit i
    = ((size_t_shl b 2 ^^^ char_to_size_t c) % 2 ^ (k + 2)).testBit i
  simp only [Nat.testBit_mod_two_pow, Nat.testBit_xor, size_t_shl, SIZE_LIMIT,
    Nat.testBit_shiftLeft]
  by_cases hi : i < k + 2
  · by_cases h2 : 2 ≤ i
    · have := testBit_eq_of_mod_eq h (j := i - 2) (by omega)
      simp [this]
    · simp [h2]
  · simp [hi]

theorem hash_foldl_mod (t : string) :
    ∀ (a b k : Nat), a % 2 ^ k = b % 2 ^ k →
      t.foldl hash_step_spec a % 2 ^ (k + 2 * t.length)
        = t.foldl hash_step_spec b % 2 ^ (k + 2 * t.length) := by
  induction t with
  | nil => intro a b k h; simpa using h
  | cons c r ih =>
    intro a b k h
    have he : k + 2 * (c :: r).length = (k + 2) + 2 * r.length := by
      simp only [List.length_cons]; omega
    rw [he, List.foldl_cons, List.foldl_cons]
    exact ih _ _ (k + 2) (hash_step_mod a b k c h)

theorem hash_loop_append (p t : string) :
    hash_loop (p ++ t) (p ++ t).length 0 0
      = t.foldl hash_step_spec (p.foldl hash_step_spec 0) := by
  rw [hash_loop_eq_foldl _ _ 0 0 (by omega), List.drop_zero, List.foldl_append]

theorem char_to_size_t_mod_four (c : Int) : char_to_size_t c % 4 = (c % 4).toNat := by
  unfold char_to_size_t SIZE_LIMIT
  have e : ((2 ^ 64 : Nat) : Int) = 18446744073709551616 := by norm_num
  rw [e]
  omega

theorem hash_it_of_ne_zero (t : HashTable T) (key : string) (h : t.tableSize ≠ 0) :
    t.hash_it key = some (hash_loop key key.length 0 0 % t.tableSize) := by
  simp [hash_it, h]

theorem hash_step_zero (c : Int) : hash_step_spec 0 c = char_to_size_t c := by
  rw [← hash_step_eq]
  show size_t_shl 0 2 ^^^ char_to_size_t c = char_to_size_t c
  simp [size_t_shl]

end HashTable

/-- C18 (placement invariant): for a capacity of at least 1 (a value of `size_t`), after
any sequence of calls of `insert` on a fresh table, `hash_it` returns `i` for the text of
every element of bucket `i`; so a value is in the table exactly when it is in the bucket
of its index, the one bucket that `find` and `insert` scan. -/
theorem C18_placement_invariant {T : Type} [DecidableEq T] [TextOf T] (cap : Nat)
    (h1 : 1 ≤ cap) (h2 : cap < SIZE_LIMIT) (xs : List T) :
    ∃ t, (HashTable.new cap).inserts xs = some t ∧
      (∀ (i : Nat) (l : List T), t.hashTable[i]? = some l → ∀ y ∈ l,
        t.hash_it (TextOf.text_of y) = some i ∧ hash_spec (TextOf.text_of y) cap = i) ∧
      (∀ y, y ∈ t.hashTable.flatten ↔
        ∃ i l, t.hash_it (TextOf.text_of y) = some i ∧ t.hashTable[i]? = some l ∧ y ∈ l) := by
  have hwf := wf_table_of cap h1 h2 (first_occurrences xs)
  have hplaced : ∀ (i : Nat) (l : List T),
      (table_of cap (first_occurrences xs)).hashTable[i]? = some l →
      ∀ y ∈ l, bucket_index cap y = i := by
    intro i l hl y hy
    rw [table_of_getElem] at hl
    split at hl
    · rw [← Option.some.inj hl] at hy
      simpa using (List.mem_filter.mp hy).2
    · simp at hl
  refine ⟨_, inserts_new cap h1 h2 xs, ?_, ?_⟩
  · intro i l hl y hy
    have hi := hplaced i l hl y hy
    refine ⟨?_, ?_⟩
    · rw [hash_it_eq _ hwf.pos y]
      exact congrArg some hi
    · rw [← bucket_index_eq_hash_spec]
      exact hi
  · intro y
    constructor
    · intro hy
      obtain ⟨l, hl, hyl⟩ := List.mem_flatten.mp hy
      obtain ⟨i, hi, hget⟩ := List.getElem_of_mem hl
      have hget1 : (table_of cap (first_occurrences xs)).hashTable[i]? = some l := by
        rw [List.getElem?_eq_getElem hi, hget]
      refine ⟨i, l, ?_, hget1, hyl⟩
      rw [hash_it_eq _ hwf.pos y]
      exact congrArg some (hplaced i l hget1 y hyl)
    · rintro ⟨i, l, -, hl, hy⟩
      exact List.mem_flatten.mpr ⟨l, List.getElem?_mem hl, hy⟩

/-- Instance of C18: capacity 4 and the inserts "ant", "bee", "cat", "ant". -/
theorem C18_placement_invariant_witness :
    ∃ t, (HashTable.new 4).inserts [ant, bee, cat, ant] = some t ∧
      (∀ (i : Nat) (l : List string), t.hashTable[i]? = some l → ∀ y ∈ l,
        t.hash_it (TextOf.text_of y) = some i ∧ hash_spec (TextOf.text_of y) 4 = i) ∧
      (∀ y, y ∈ t.hashTable.flatten ↔
        ∃ i l, t.hash_it (TextOf.text_of y) = some i ∧ t.hashTable[i]? = some l ∧ y ∈ l) :=
  C18_placement_invariant 4 (by decide) (by decide) [ant, bee, cat, ant]

/-- C19 (bucket index in range): on a table with as many buckets as `tableSize` says,
for a capacity of at least 1 `hash_it` returns for every text an index below the
capacity, at which the bucket array has a bucket; for capacity 0 the remainder by
`tableSize` has no result, and neither have `insert` and `find`. -/
theorem C19_bucket_index_in_range {T : Type} [DecidableEq T] [TextOf T]
    (t : HashTable T) (hlen : t.hashTable.length = t.tableSize) (key : string) :
    (1 ≤ t.tableSize →
      ∃ i l, t.hash_it key = some i ∧ i < t.tableSize ∧ t.hashTable[i]? = some l) ∧
    (t.tableSize = 0 →
      t.hash_it key = none ∧ ∀ x : T, t.insert x = none ∧ t.find x = none) := by
  constructor
  · intro h1
    have hlt : hash_loop key key.length 0 0 % t.tableSize < t.tableSize :=
      Nat.mod_lt _ h1
    have hb : hash_loop key key.length 0 0 % t.tableSize < t.hashTable.length := by
      rw [hlen]; exact hlt
    refine ⟨_, t.hashTable[hash_loop key key.length 0 0 % t.tableSize], ?_,
      hlt, List.getElem?_eq_getElem hb⟩
    simp [hash_it, Nat.pos_iff_ne_zero.mp h1]
  · intro h0
    have hh : ∀ k : string, t.hash_it k = none := fun k => by simp [hash_it, h0]
    exact ⟨hh key, fun x => ⟨by simp [HashTable.insert, hh], by simp [HashTable.find, hh]⟩⟩

/-- Instance of C19: the text "dog" on a fresh table of capacity 4 and on one of
capacity 0. -/
theorem C19_bucket_index_in_range_witness :
    ((1 ≤ (HashTable.new 4 : HashTable string).tableSize →
      ∃ i l, (HashTable.new 4 : HashTable string).hash_it dog = some i ∧
        i < (HashTable.new 4 : HashTable string).tableSize ∧
        (HashTable.new 4 : HashTable string).hashTable[i]? = some l) ∧
    ((HashTable.new 4 : HashTable string).tableSize = 0 →
      (HashTable.new 4 : HashTable string).hash_it dog = none ∧
      ∀ x : string, (HashTable.new 4 : HashTable string).insert x = none ∧
        (HashTable.new 4 : HashTable string).find x = none)) ∧
    ((1 ≤ (HashTable.new 0 : HashTable string).tableSize →
      ∃ i l, (HashTable.new 0 : HashTable string).hash_it dog = some i ∧
        i < (HashTable.new 0 : HashTable string).tableSize ∧
        (HashTable.new 0 : HashTable string).hashTable[i]? = some l) ∧
    ((HashTable.new 0 : HashTable string).tableSize = 0 →
      (HashTable.new 0 : HashTable string).hash_it dog = none ∧
      ∀ x : string, (HashTable.new 0 : HashTable string).insert x = none ∧
        (HashTable.new 0 : HashTable string).find x = none)) ∧
    (HashTable.new 4 : HashTable string).hash_it dog = some 3 ∧
    (HashTable.new 0 : HashTable string).hash_it dog = none :=
  ⟨C19_bucket_index_in_range (HashTable.new 4) (by decide) dog,
    C19_bucket_index_in_range (HashTable.new 0) (by decide) dog, by decide, by decide⟩

/-! ## The hash and the trailing characters -/

/-- C20 (trailing characters): with the default capacity 1048576, `hash_it` returns the
same index for two texts that end with the same 10 characters `t`, the index of `t`
itself; with capacity 4 the index of a text that ends with the character `c` is the
numeric code of `c` modulo 4. -/
theorem C20_hash_trailing_characters (T : Type) (p1 p2 t : string)
    (ht : t.length = 10) :
    (∀ tbl : HashTable T, tbl.tableSize = DEFAULT_SIZE →
      ∃ i, tbl.hash_it (p1 ++ t) = some i ∧ tbl.hash_it (p2 ++ t) = some i ∧
        tbl.hash_it t = some i) ∧
    (∀ (tbl : HashTable T) (p : string) (c : Int), tbl.tableSize = 4 →
      tbl.hash_it (p ++ [c]) = some ((c % 4).toNat)) := by
  constructor
  · intro tbl hsz
    have hne : tbl.tableSize ≠ 0 := by rw [hsz]; decide
    have key : ∀ p : string, hash_loop (p ++ t) (p ++ t).length 0 0 % DEFAULT_SIZE
        = t.foldl hash_step_spec 0 % DEFAULT_SIZE := by
      intro p
      rw [hash_loop_append]
      have := hash_foldl_mod t (p.foldl hash_step_spec 0) 0 0 (by simp [Nat.mod_one])
      rw [ht] at this
      exact this
    have h0 := key []
    simp only [List.nil_append] at h0
    refine ⟨t.foldl hash_step_spec 0 % DEFAULT_SIZE, ?_, ?_, ?_⟩
    · rw [hash_it_of_ne_zero _ _ hne, hsz, key p1]
    · rw [hash_it_of_ne_zero _ _ hne, hsz, key p2]
    · rw [hash_it_of_ne_zero _ _ hne, hsz, h0]
  · intro tbl p c hsz
    have hne : tbl.tableSize ≠ 0 := by rw [hsz]; decide
    have h4 : hash_loop (p ++ [c]) (p ++ [c]).length 0 0 % 4 = (c % 4).toNat := by
      rw [hash_loop_append, List.foldl_cons, List.foldl_nil]
      have := hash_step_mod (p.foldl hash_step_spec 0) 0 0 c (by simp [Nat.mod_one])
      rw [hash_step_zero] at this
      have e : (2 : Nat) ^ (0 + 2) = 4 := by norm_num
      rw [e] at this
      rw [this, char_to_size_t_mod_four]
    rw [hash_it_of_ne_zero _ _ hne, hsz, h4]

/-- Instance of C20: "ant" and "dog" before the 10 characters "abcdefghij". -/
theorem C20_hash_trailing_characters_witness :
    ((∀ tbl : HashTable string, tbl.tableSize = DEFAULT_SIZE →
      ∃ i, tbl.hash_it (ant ++ [97, 98, 99, 100, 101, 102, 103, 104, 105, 106]) = some i ∧
        tbl.hash_it (dog ++ [97, 98, 99, 100, 101, 102, 103, 104, 105, 106]) = some i ∧
        tbl.hash_it [97, 98, 99, 100, 101, 102, 103, 104, 105, 106] = some i) ∧
    (∀ (tbl : HashTable string) (p : string) (c : Int), tbl.tableSize = 4 →
      tbl.hash_it (p ++ [c]) = some ((c % 4).toNat))) ∧
    (HashTable.new 4 : HashTable string).hash_it bee = some 1 :=
  ⟨C20_hash_trailing_characters string ant dog
      [97, 98, 99, 100, 101, 102, 103, 104, 105, 106] (by decide), by decide⟩

end HashTableSTL
